import Mathlib

/-!
Verification development for `njv.py`, a BJData/Binary JSON viewer with SOA
(structure-of-arrays) support.  The Python source is shallowly embedded:

* bytes are `Nat`s (always `< 256` in real buffers), byte buffers are `List Nat`;
* the reader object (`self.data`, `self.pos`, `self.max_data`, endianness) is an
  explicit `Reader` record threaded through the read functions;
* Python exceptions become an explicit `PyErr` error type in `Except`;
* `struct.unpack` is modelled bit-exactly for integer formats; IEEE-754 float
  values are represented by their raw bit pattern (`Value.float`), which is
  injective, so equality statements about decoded floats are faithful; only
  the textual `repr` of a float is abstracted (`floatRepr`), and no theorem
  below depends on it;
* `bytes.decode('utf-8', errors='replace')` is modelled by `decodeUtf8Replace`,
  following CPython's maximal-subpart replacement behaviour.
-/

namespace Njv

/-- Python exceptions that the decoder can raise.  `eofError` is raised
explicitly by `BJDataReader.read` and carries the cursor position interpolated
into its message; the remaining constructors model built-in exceptions raised
implicitly (exception message texts are elided). -/
inductive PyErr where
  | eofError (pos : Nat)
  | valueError
  | keyError (key : List Nat)
  | indexError
  | structError
  | typeError
deriving DecidableEq, Repr

/-- The decoded value tree.  Python `None`/`bool`/`int`/`str`/`list`/
`OrderedDict` map to the corresponding constructors; a one-character string
produced by `chr` is a `str`, a raw byte (`B` marker) is an `int`, and the
in-band preview stand-ins such as `"<truncated>"` are ordinary `str` values,
exactly as in the source.  Floats carry their width and raw bit pattern. -/
inductive Value where
  | null
  | bool (b : Bool)
  | int (n : Int)
  | float (width : Nat) (bits : Nat)
  | str (s : String)
  | list (vs : List Value)
  | obj (fields : List (String × Value))
deriving Repr

/-- Numeric kind of a `struct` format character. -/
inductive FmtKind where
  | uint
  | sint
  | float
deriving DecidableEq, Repr

/-- A `struct` format string such as `'<B'` or `'>q'`: byte order, width in
bytes and numeric kind.  The width equals `struct.calcsize(fmt)`. -/
structure Fmt where
  big : Bool
  size : Nat
  kind : FmtKind
deriving DecidableEq, Repr

/-- Little-endian byte list to natural number. -/
def leNat (l : List Nat) : Nat := l.foldr (fun b acc => b + 256 * acc) 0

/-- The numeric value `struct.unpack(fmt, b)[0]` computes from a byte string of
the exact expected width: unsigned/two's-complement integers, and floats kept
as their raw bit pattern. -/
def fmtValue (f : Fmt) (b : List Nat) : Value :=
  let le := if f.big then b.reverse else b
  let u := leNat le
  match f.kind with
  | .uint => .int u
  | .sint => .int (if u < 2 ^ (8 * f.size - 1) then (u : Int) else (u : Int) - 2 ^ (8 * f.size))
  | .float => .float f.size u

/-- `struct.unpack(fmt, b)[0]`.  `fmt = none` models the `None` entries of the
marker table (`Z`/`N`/`T`/`F`), for which `struct.unpack` raises `TypeError`;
a byte string whose length differs from `calcsize(fmt)` raises `struct.error`. -/
def struct_unpack (fmt : Option Fmt) (b : List Nat) : Except PyErr Value :=
  match fmt with
  | none => .error .typeError
  | some f => if b.length = f.size then .ok (fmtValue f b) else .error .structError

/-- `make_markers(big_endian)` from the source: the marker table mapping a
one-byte type marker to `(size, fmt)`, kept as the (distinct-keyed)
association list underlying the Python dict literal.  Byte values: `Z`=90
`N`=78 `T`=84 `F`=70 `i`=105 `U`=85 `I`=73 `u`=117 `l`=108 `m`=109 `L`=76
`M`=77 `h`=104 `d`=100 `D`=68 `C`=67 `B`=66. -/
def make_markers (big : Bool) : List (Nat × (Nat × Option Fmt)) :=
  [(90, (0, none)), (78, (0, none)), (84, (0, none)), (70, (0, none)),
   (105, (1, some ⟨big, 1, .sint⟩)), (85, (1, some ⟨big, 1, .uint⟩)),
   (73, (2, some ⟨big, 2, .sint⟩)), (117, (2, some ⟨big, 2, .uint⟩)),
   (108, (4, some ⟨big, 4, .sint⟩)), (109, (4, some ⟨big, 4, .uint⟩)),
   (76, (8, some ⟨big, 8, .sint⟩)), (77, (8, some ⟨big, 8, .uint⟩)),
   (104, (2, some ⟨big, 2, .float⟩)), (100, (4, some ⟨big, 4, .float⟩)),
   (68, (8, some ⟨big, 8, .float⟩)), (67, (1, some ⟨big, 1, .uint⟩)),
   (66, (1, some ⟨big, 1, .uint⟩))]

/-- `self.markers[marker]` where `marker` is a Python `bytes` object: only
single-byte keys are present in the dictionary; a missing key raises
`KeyError` at the call sites. -/
def markersKey (big : Bool) (m : List Nat) : Option (Nat × Option Fmt) :=
  match m with
  | [b] => ((make_markers big).find? (fun p => p.1 = b)).map (fun p => p.2)
  | _ => none

/-- Python slice `l[a:b]` for non-negative bounds (clamping as in Python). -/
def pySlice (l : List α) (a b : Nat) : List α := (l.take b).drop a

/-- Clamp a (possibly negative) Python slice index into `0..n`. -/
def clampIdx (n : Nat) (i : Int) : Nat :=
  if i < 0 then ((n : Int) + i).toNat else min i.toNat n

/-- Python slice `l[a:b]` with arbitrary integer bounds. -/
def pySliceI (l : List α) (a b : Int) : List α :=
  (l.take (clampIdx l.length b)).drop (clampIdx l.length a)

/-- Python indexing `l[i]` with a non-negative index: `IndexError` when out of
range. -/
def pyGetNat (l : List α) (i : Nat) : Except PyErr α :=
  if h : i < l.length then .ok (l.get ⟨i, h⟩) else .error .indexError

/-- Python indexing `l[i]` with an arbitrary integer index (negative indices
count from the end, as in Python). -/
def pyGetInt (l : List α) (i : Int) : Except PyErr α :=
  let j : Int := if i < 0 then i + l.length else i
  if h : 0 ≤ j ∧ j < l.length then
    .ok (l.get ⟨j.toNat, by omega⟩)
  else .error .indexError

/-- A Python list index must be an `int`; anything else raises `TypeError`. -/
def valueToIndex (v : Value) : Except PyErr Int :=
  match v with
  | .int n => .ok n
  | _ => .error .typeError

/-- Evaluate a Python list comprehension `[f(a) for a in l]` in which `f` can
raise: the first exception propagates. -/
def mapExc (f : α → Except ε β) : List α → Except ε (List β)
  | [] => .ok []
  | a :: l => do
    let b ← f a
    let bs ← mapExc f l
    .ok (b :: bs)

/-- Assignment `d[k] = v` on a Python `dict`/`OrderedDict`: replace in place if
the key exists (keeping its position), else append. -/
def dictSet (d : List (String × α)) (k : String) (v : α) : List (String × α) :=
  if d.any (fun p => p.1 = k) then d.map (fun p => if p.1 = k then (k, v) else p)
  else d ++ [(k, v)]

/-- Lookup `d[k]` on a Python `dict`: `KeyError` (payload elided) if absent. -/
def pyDictGet (d : List (String × α)) (k : String) : Except PyErr α :=
  match d.find? (fun p => p.1 = k) with
  | some p => .ok p.2
  | none => .error (.keyError [])

/-- Is a byte a valid UTF-8 continuation byte (`0x80..0xBF`)? -/
def isCont (b : Nat) : Bool := 128 ≤ b && b ≤ 191

/-- The Unicode replacement character U+FFFD. -/
def repl : Char := Char.ofNat 0xFFFD

/-- `bytes.decode('utf-8', errors='replace')`: decode valid UTF-8 sequences
exactly (overlong forms, surrogates and values above U+10FFFF rejected), and
replace each maximal invalid subpart with one U+FFFD, as CPython does.  Total:
it never raises. -/
def decodeUtf8Replace : List Nat → List Char
  | [] => []
  | b0 :: rest =>
    if b0 < 128 then
      Char.ofNat b0 :: decodeUtf8Replace rest
    else if 194 ≤ b0 ∧ b0 ≤ 223 then
      match rest with
      | [] => [repl]
      | b1 :: rest2 =>
        if isCont b1 then Char.ofNat ((b0 - 192) * 64 + (b1 - 128)) :: decodeUtf8Replace rest2
        else repl :: decodeUtf8Replace (b1 :: rest2)
    else if 224 ≤ b0 ∧ b0 ≤ 239 then
      match rest with
      | [] => [repl]
      | b1 :: rest2 =>
        if (if b0 = 224 then 160 ≤ b1 && b1 ≤ 191
            else if b0 = 237 then 128 ≤ b1 && b1 ≤ 159
            else isCont b1) then
          match rest2 with
          | [] => [repl]
          | b2 :: rest3 =>
            if isCont b2 then
              Char.ofNat ((b0 - 224) * 4096 + (b1 - 128) * 64 + (b2 - 128)) :: decodeUtf8Replace rest3
            else repl :: decodeUtf8Replace (b2 :: rest3)
        else repl :: decodeUtf8Replace (b1 :: rest2)
    else if 240 ≤ b0 ∧ b0 ≤ 244 then
      match rest with
      | [] => [repl]
      | b1 :: rest2 =>
        if (if b0 = 240 then 144 ≤ b1 && b1 ≤ 191
            else if b0 = 244 then 128 ≤ b1 && b1 ≤ 143
            else isCont b1) then
          match rest2 with
          | [] => [repl]
          | b2 :: rest3 =>
            if isCont b2 then
              match rest3 with
              | [] => [repl]
              | b3 :: rest4 =>
                if isCont b3 then
                  Char.ofNat ((b0 - 240) * 262144 + (b1 - 128) * 4096 + (b2 - 128) * 64 + (b3 - 128))
                    :: decodeUtf8Replace rest4
                else repl :: decodeUtf8Replace (b3 :: rest4)
            else repl :: decodeUtf8Replace (b2 :: rest3)
        else repl :: decodeUtf8Replace (b1 :: rest2)
    else
      repl :: decodeUtf8Replace rest

/-- UTF-8 encoding of one character (the reference encoding; `njv.py` never
encodes, this is used to state round-trip properties of the decoder). -/
def encodeChar (c : Char) : List Nat :=
  if c.toNat < 128 then [c.toNat]
  else if c.toNat < 2048 then [192 + c.toNat / 64, 128 + c.toNat % 64]
  else if c.toNat < 65536 then
    [224 + c.toNat / 4096, 128 + (c.toNat / 64) % 64, 128 + c.toNat % 64]
  else
    [240 + c.toNat / 262144, 128 + (c.toNat / 4096) % 64, 128 + (c.toNat / 64) % 64,
     128 + c.toNat % 64]

/-- UTF-8 encoding of a character sequence. -/
def encodeStr (s : List Char) : List Nat := s.flatMap encodeChar

/-- Python `s.rstrip('\x00')`: strip trailing NUL characters. -/
def rstripNull (s : List Char) : List Char :=
  (s.reverse.dropWhile (fun c => c = '\x00')).reverse

/-- The state of a `BJDataReader`: the byte buffer, the cursor, the `max_data`
preview budget and the endianness flag selecting the marker table.  (`max_str`
and `debug` never influence decoding and are omitted.) -/
structure Reader where
  data : List Nat
  pos : Nat
  maxData : Nat
  big : Bool
deriving Repr

/-- `BJDataReader.remaining`. -/
def Reader.remaining (r : Reader) : Nat := r.data.length - r.pos

/-- `BJDataReader.read(n)` for a (possibly negative) Python `int` argument:
raise `EOFError(f"EOF at {self.pos}")` when `pos + n` overruns the buffer,
else return `data[pos:pos+n]` and advance the cursor.  (A negative `n` — only
reachable through a negative decoded length — moves the cursor backwards in
Python; the model clamps the cursor at 0, which no theorem below relies on.) -/
def readI (n : Int) (r : Reader) : Except PyErr (List Nat × Reader) :=
  if (r.pos : Int) + n > (r.data.length : Int) then .error (.eofError r.pos)
  else .ok (pySliceI r.data (r.pos : Int) ((r.pos : Int) + n),
            ⟨r.data, ((r.pos : Int) + n).toNat, r.maxData, r.big⟩)

/-- `BJDataReader.read(n)` for a natural-number count. -/
def read (n : Nat) (r : Reader) : Except PyErr (List Nat × Reader) := readI (n : Int) r

/-- `BJDataReader.read_int(marker=None)`: read one marker byte when none is
supplied, look it up in the marker table (`KeyError` if absent) and unpack a
scalar of its width.  The unpacked value is returned as a `Value` (the marker
can denote a float, in which case Python would return a `float` here). -/
def read_int (marker : Option (List Nat)) (r : Reader) : Except PyErr (Value × Reader) := do
  let (m, r1) ← match marker with
    | none => read 1 r
    | some m => pure (m, r)
  match markersKey r1.big m with
  | none => .error (.keyError m)
  | some (size, fmt) => do
    let (bs, r2) ← read size r1
    let v ← struct_unpack fmt bs
    .ok (v, r2)

/-- `BJDataReader.read_string`: read a length-prefixed integer, then that many
raw bytes decoded with `decode('utf-8', errors='replace')`.  A zero (falsy)
length short-circuits to `""` without reading.  (A float-valued length —
possible only via a float length marker — is modelled as the `TypeError`
Python raises when slicing with it; Python would return `""` for the exotic
falsy value `0.0` first, a corner no theorem exercises.) -/
def read_string (r : Reader) : Except PyErr (String × Reader) := do
  let (v, r1) ← read_int none r
  match v with
  | .int n =>
    if n = 0 then .ok ("", r1)
    else do
      let (bs, r2) ← readI n r1
      .ok (String.mk (decodeUtf8Replace bs), r2)
  | _ => .error .typeError

/-- The sequential batch `[struct.unpack(fmt, self.read(size))[0] for _ in
range(k)]`. -/
def readUnpackSeq (size : Nat) (fmt : Option Fmt) : Nat → Reader → Except PyErr (List Value × Reader)
  | 0, r => .ok ([], r)
  | k + 1, r => do
    let (bs, r1) ← read size r
    let v ← struct_unpack fmt bs
    let (vs, r2) ← readUnpackSeq size fmt k r1
    .ok (v :: vs, r2)

/-- The sequential batch `[self.read(1) == b'T' for _ in range(k)]`. -/
def readBoolSeq : Nat → Reader → Except PyErr (List Value × Reader)
  | 0, r => .ok ([], r)
  | k + 1, r => do
    let (bs, r1) ← read 1 r
    let (vs, r2) ← readBoolSeq k r1
    .ok (.bool (bs = [84]) :: vs, r2)

/-- Python `repr`/`str` of a float: abstracted (IEEE shortest-round-trip
decimal formatting is out of scope); injective in the bit pattern, and no
theorem below depends on its exact text. -/
def floatRepr (width bits : Nat) : String :=
  "<float" ++ toString width ++ ":" ++ toString bits ++ ">"

/-- One escaped character of a Python single-quoted `repr` string literal
(common cases; `\xNN` escapes of other non-printables are elided — no theorem
depends on them). -/
def pyEscapeChar (q : Char) (c : Char) : String :=
  if c = '\\' then "\\\\"
  else if c = q then "\\" ++ String.mk [q]
  else if c = '\n' then "\\n"
  else if c = '\r' then "\\r"
  else if c = '\t' then "\\t"
  else String.mk [c]

/-- Python `repr` of a `str`: single quotes, switching to double quotes when
the text contains a single quote but no double quote. -/
def pyStrRepr (s : String) : String :=
  let hasSq := s.data.any (fun c => c = '\x27')
  let hasDq := s.data.any (fun c => c = '"')
  let q : Char := if hasSq ∧ ¬hasDq then '"' else '\x27'
  String.mk [q] ++ String.join (s.data.map (pyEscapeChar q)) ++ String.mk [q]

/-- Python `repr(value)` (equal to `str(value)` for the container types that
the viewer interpolates into f-strings). -/
def pyRepr : Value → String
  | .null => "None"
  | .bool b => if b then "True" else "False"
  | .int n => toString n
  | .float w bits => floatRepr w bits
  | .str s => pyStrRepr s
  | .list vs =>
    "[" ++ String.intercalate ", " (vs.attach.map (fun x => pyRepr x.val)) ++ "]"
  | .obj fs =>
    "OrderedDict([" ++
      String.intercalate ", "
        (fs.attach.map (fun x => "(" ++ pyStrRepr x.val.1 ++ ", " ++ pyRepr x.val.2 ++ ")")) ++
    "])"
decreasing_by
  · have := List.sizeOf_lt_of_mem x.property
    simp only [Value.list.sizeOf_spec]
    omega
  · have h1 := List.sizeOf_lt_of_mem x.property
    have h2 : sizeOf x.val.2 < sizeOf x.val := by
      obtain ⟨a, b⟩ := x.val
      simp only [Prod.mk.sizeOf_spec]
      omega
    simp only [Value.obj.sizeOf_spec]
    omega

/-- Python `str(value)`: the string itself for `str`, `repr` otherwise. -/
def pyStr (v : Value) : String :=
  match v with
  | .str s => s
  | _ => pyRepr v

/-- `repr` of a Python list of ints, as interpolated by the preview f-strings
(`f"{vals[:4]}"`, `f"{dims}"`). -/
def intListRepr (ds : List Nat) : String := pyRepr (.list (ds.map (fun d => Value.int d)))

/-- `BJDataReader.read_typed_values(marker, count)`: the typed-array fast
path.  Boolean markers read one byte per element with no truncation or budget
check.  Numeric markers return the string `"<truncated>"` (consuming nothing)
when `count*size` exceeds the remaining bytes; when `count` exceeds the
`max_data` budget they decode the first `min(8, count)` values, skip the rest
of the element bytes, and return a preview string; otherwise they decode all
`count` values.  `count` is a Python `int` and may be negative (`range` is
then empty), exactly as in the source. -/
def read_typed_values (m : List Nat) (count : Int) (r : Reader) : Except PyErr (Value × Reader) :=
  if m = [84] ∨ m = [70] then do
    let (vs, r1) ← readBoolSeq count.toNat r
    .ok (.list vs, r1)
  else
    match markersKey r.big m with
    | none => .error (.keyError m)
    | some (size, fmt) =>
      if count * size > (r.remaining : Int) then .ok (.str "<truncated>", r)
      else if count > (r.maxData : Int) then do
        let (vals, r1) ← readUnpackSeq size fmt (min 8 count).toNat r
        let (_, r2) ← readI ((count - vals.length) * size) r1
        .ok (.str ("<" ++ toString count ++ " values: " ++ pyRepr (.list (vals.take 4)) ++ "...>"), r2)
      else do
        let (vals, r1) ← readUnpackSeq size fmt count.toNat r
        .ok (.list vals, r1)

/-- `BJDataReader.read_nd_array(elem_type, dims, col_major)`: `total` is the
product of the dimensions; the truncation check, the budget preview and the
full batch decode mirror `read_typed_values`.  (The dimensions are the decoded
non-negative sizes of a well-formed shape.) -/
def read_nd_array (elem : List Nat) (dims : List Nat) (colMajor : Bool) (r : Reader) :
    Except PyErr (Value × Reader) :=
  let total := dims.foldl (· * ·) 1
  match markersKey r.big elem with
  | none => .error (.keyError elem)
  | some (size, fmt) =>
    if total * size > r.remaining then
      .ok (.str ("<" ++ intListRepr dims ++ " " ++ (if colMajor then "col" else "row") ++ ": truncated>"), r)
    else if total > r.maxData then do
      let (vals, r1) ← readUnpackSeq size fmt (min 8 total) r
      let (_, r2) ← read ((total - vals.length) * size) r1
      .ok (.str ("<" ++ intListRepr dims ++ " " ++ (if colMajor then "col" else "row") ++ ": " ++
                 pyRepr (.list (vals.take 4)) ++ "...>"), r2)
    else do
      let (vals, r1) ← readUnpackSeq size fmt total r
      .ok (.list vals, r1)

/-- An element of a fixed-length heterogeneous SOA array field, as recorded by
`read_field_type`: a fixed-width numeric element (with its width and format)
or a one-byte boolean. -/
inductive Elem where
  | fixed (size : Nat) (fmt : Option Fmt)
  | bool
deriving Repr

/-- The per-element byte width (`elem['bytes']`). -/
def Elem.bytes : Elem → Nat
  | .fixed s _ => s
  | .bool => 1

/-- One SOA field schema entry, as produced by `read_field_type`: the
constructor arguments are exactly the keys the source stores in the field
dictionary.  For `strOffset`, `offsets` and `strbuf` are the side tables that
`decode_soa` reads into the field before decoding (`field['offsets']`,
`field['strbuf']`); for `arr` and `stru` the total byte width is stored at
schema-read time, as in the source. -/
inductive Field where
  | fixed (name : String) (size : Nat) (fmt : Option Fmt)
  | bool (name : String)
  | null (name : String)
  | strF (name : String) (n : Nat)
  | strDict (name : String) (ibytes : Nat) (imarker : List Nat) (dict : List String)
  | strOffset (name : String) (ibytes : Nat) (ifmt : Fmt) (offsets : List Int) (strbuf : String)
  | arr (name : String) (elems : List Elem) (tbytes : Nat)
  | stru (name : String) (schema : List Field) (sbytes : Nat)
deriving Repr

/-- `field['name']`. -/
def Field.name : Field → String
  | .fixed n _ _ => n
  | .bool n => n
  | .null n => n
  | .strF n _ => n
  | .strDict n _ _ _ => n
  | .strOffset n _ _ _ _ => n
  | .arr n _ _ => n
  | .stru n _ _ => n

/-- `field['bytes']`: the fixed per-record byte width of the field. -/
def Field.bytes : Field → Nat
  | .fixed _ s _ => s
  | .bool _ => 1
  | .null _ => 0
  | .strF _ n => n
  | .strDict _ ib _ _ => ib
  | .strOffset _ ib _ _ _ => ib
  | .arr _ _ tb => tb
  | .stru _ _ sb => sb

/-- The loop body of the fixed-array field decode (`decode_field` lines
333-341): walk the element kinds over the record's byte slice, accumulating
values.  `data[pos]` indexing for booleans and `struct.unpack` on the
per-element slice mirror the source. -/
def decode_elems (data : List Nat) : List Elem → Nat → Except PyErr (List Value)
  | [], _ => .ok []
  | e :: rest, pos => do
    let v ← match e with
      | .fixed _ fmt => struct_unpack fmt (pySlice data pos (pos + e.bytes))
      | .bool => do
          let b ← pyGetNat data pos
          pure (Value.bool (b = 84))
    let vs ← decode_elems data rest (pos + e.bytes)
    .ok (v :: vs)

/-- The loop body of the fixed-array column decode (`decode_column` lines
304-316): identical to `decode_elems` except that elements are addressed
through `data[i*fbytes+pos : i*fbytes+pos+elem_bytes]` and booleans through
`elem_data[0]`. -/
def decode_elems_col (data : List Nat) (base : Nat) : List Elem → Nat → Except PyErr (List Value)
  | [], _ => .ok []
  | e :: rest, pos => do
    let elemData := pySlice data (base + pos) (base + pos + e.bytes)
    let v ← match e with
      | .fixed _ fmt => struct_unpack fmt elemData
      | .bool => do
          let b ← pyGetNat elemData 0
          pure (Value.bool (b = 84))
    let vs ← decode_elems_col data base rest (pos + e.bytes)
    .ok (v :: vs)

mutual

/-- `BJDataReader.decode_field(field, data, idx)`: decode one field value from
its per-record byte slice.  The `idx` parameter is unused (the source shadows
it in the offset branch), kept for fidelity. -/
def decode_field (big : Bool) (f : Field) (data : List Nat) (idx : Nat) : Except PyErr Value :=
  match f with
  | .fixed _ _ fmt => struct_unpack fmt data
  | .bool _ => do
    let b ← pyGetNat data 0
    pure (Value.bool (b = 84))
  | .null _ => .ok .null
  | .strF _ _ => .ok (.str (String.mk (rstripNull (decodeUtf8Replace data))))
  | .strDict _ _ im dict =>
    match markersKey big im with
    | none => .error (.keyError im)
    | some (_, idxFmt) => do
      let v ← struct_unpack idxFmt data
      let j ← valueToIndex v
      let s ← pyGetInt dict j
      .ok (.str s)
  | .strOffset _ _ ifmt offsets strbuf => do
    let v ← struct_unpack (some ifmt) data
    let j ← valueToIndex v
    let o1 ← pyGetInt offsets j
    let o2 ← pyGetInt offsets (j + 1)
    .ok (.str (String.mk (pySliceI strbuf.data o1 o2)))
  | .arr _ elems _ => do
    let vs ← decode_elems data elems 0
    .ok (.list vs)
  | .stru _ schema _ => do
    let d ← decode_struct big schema data 0 []
    .ok (.obj d)

/-- `BJDataReader.decode_struct(schema, data)`: decode a nested struct by
applying `decode_field` to consecutive byte slices, accumulating an
`OrderedDict` (`result[field['name']] = ...`). -/
def decode_struct (big : Bool) (schema : List Field) (data : List Nat) (pos : Nat)
    (acc : List (String × Value)) : Except PyErr (List (String × Value)) :=
  match schema with
  | [] => .ok acc
  | f :: rest =>
    match decode_field big f (pySlice data pos (pos + f.bytes)) 0 with
    | .error e => .error e
    | .ok v => decode_struct big rest data (pos + f.bytes) (dictSet acc f.name v)

end

/-- `BJDataReader.decode_column(field, data, count)`: decode one field's
contiguous column of `count` values.  Each branch is the source's list
comprehension; for dictionary strings the index format lookup
(`self.markers[field['index_marker']][1]`) happens once, before the
comprehension, exactly as in the source. -/
def decode_column (big : Bool) (f : Field) (data : List Nat) (count : Nat) :
    Except PyErr (List Value) :=
  match f with
  | .fixed _ _ fmt =>
    mapExc (fun i => struct_unpack fmt (pySlice data (i * f.bytes) ((i + 1) * f.bytes)))
      (List.range count)
  | .bool _ =>
    mapExc (fun i => do
      let b ← pyGetNat data i
      pure (Value.bool (b = 84))) (List.range count)
  | .null _ => .ok (List.replicate count Value.null)
  | .strF _ fb =>
    mapExc (fun i =>
      .ok (Value.str (String.mk (rstripNull (decodeUtf8Replace (pySlice data (i * fb) ((i + 1) * fb)))))))
      (List.range count)
  | .strDict _ ib im dict =>
    match markersKey big im with
    | none => .error (.keyError im)
    | some (_, idxFmt) =>
      mapExc (fun i => do
        let v ← struct_unpack idxFmt (pySlice data (i * ib) ((i + 1) * ib))
        let j ← valueToIndex v
        let s ← pyGetInt dict j
        .ok (Value.str s)) (List.range count)
  | .strOffset _ ib ifmt offsets strbuf =>
    mapExc (fun i => do
      let v ← struct_unpack (some ifmt) (pySlice data (i * ib) ((i + 1) * ib))
      let j ← valueToIndex v
      let o1 ← pyGetInt offsets j
      let o2 ← pyGetInt offsets (j + 1)
      .ok (Value.str (String.mk (pySliceI strbuf.data o1 o2)))) (List.range count)
  | .arr _ elems fb =>
    mapExc (fun i => do
      let vs ← decode_elems_col data (i * fb) elems 0
      .ok (Value.list vs)) (List.range count)
  | .stru _ schema fb =>
    mapExc (fun i => do
      let d ← decode_struct big schema (pySlice data (i * fb) ((i + 1) * fb)) 0 []
      .ok (Value.obj d)) (List.range count)

/-- `sum(field['bytes'] for field in schema)`. -/
def record_bytes (schema : List Field) : Nat := (schema.map Field.bytes).sum

/-- The column-major branch of `decode_soa`, first phase: slice the payload
into per-field runs of `field['bytes'] * count` bytes and decode each run as a
full column, collecting them in the `columns` dictionary. -/
def decode_soa_cols_build (big : Bool) (payload : List Nat) (count : Nat) :
    List Field → List (String × List Value) → Nat → Except PyErr (List (String × List Value))
  | [], cols, _ => .ok cols
  | f :: rest, cols, pos => do
    let c ← decode_column big f (pySlice payload pos (pos + f.bytes * count)) count
    decode_soa_cols_build big payload count rest (dictSet cols f.name c) (pos + f.bytes * count)

/-- The column-major branch of `decode_soa`, second phase: transpose the
columns into row records in schema field order
(`OrderedDict((f['name'], columns[f['name']][i]) for f in schema)`). -/
def decode_col_record (cols : List (String × List Value)) (i : Nat) :
    List Field → List (String × Value) → Except PyErr (List (String × Value))
  | [], acc => .ok acc
  | f :: rest, acc => do
    let col ← pyDictGet cols f.name
    let v ← pyGetNat col i
    decode_col_record cols i rest (dictSet acc f.name v)

/-- The row-major branch of `decode_soa`: decode record `i`'s fields in schema
order from the record's contiguous byte run. -/
def decode_row_fields (big : Bool) (payload : List Nat) (i : Nat) :
    List Field → Nat → List (String × Value) → Except PyErr (List (String × Value))
  | [], _, record => .ok record
  | f :: rest, pos, record => do
    let v ← decode_field big f (pySlice payload pos (pos + f.bytes)) i
    decode_row_fields big payload i rest (pos + f.bytes) (dictSet record f.name v)

/-- `BJDataReader.decode_soa(schema, count, layout)`, modelled from the point
at which the payload bytes (`record_bytes * count` of them) have been read and
any offset-string side tables (which are layout-independent) have been
attached to their fields: branch on the layout and produce the ordered list of
records. -/
def decode_soa (big : Bool) (schema : List Field) (count : Nat) (layout : String)
    (payload : List Nat) : Except PyErr (List (List (String × Value))) :=
  if layout = "column" then do
    let cols ← decode_soa_cols_build big payload count schema [] 0
    mapExc (fun i => decode_col_record cols i schema []) (List.range count)
  else
    mapExc (fun i => decode_row_fields big payload i schema (i * record_bytes schema) [])
      (List.range count)

/-- Modelled from the spec: the column-major payload "encoding the same
logical records" as a given row-major payload — for each field in schema
order, the concatenation of that field's per-record byte slices of the
row-major payload (records in order).  This is the byte-level transpose that
relates the two physical layouts of §4.3. -/
def toColMajorFrom (payload : List Nat) (rb count : Nat) : List Field → Nat → List Nat
  | [], _ => []
  | f :: rest, off =>
    (List.flatten ((List.range count).map
      (fun i => pySlice payload (i * rb + off) (i * rb + off + f.bytes)))) ++
    toColMajorFrom payload rb count rest (off + f.bytes)

/-- Modelled from the spec: see `toColMajorFrom`. -/
def toColMajor (schema : List Field) (count : Nat) (payload : List Nat) : List Nat :=
  toColMajorFrom payload (record_bytes schema) count schema 0

/-- Does `l` start with `sub`? -/
def leadsWith : List Char → List Char → Bool
  | _, [] => true
  | [], _ :: _ => false
  | a :: l, b :: m => a = b && leadsWith l m

/-- Python `sub in l` substring containment. -/
def hasSub (sub : List Char) : List Char → Bool
  | [] => sub.isEmpty
  | c :: rest => leadsWith (c :: rest) sub || hasSub sub rest

/-- Python `s[-k:]` for a non-negative `k` (note `s[-0:]` is all of `s`). -/
def pyTail (s : List Char) (k : Nat) : List Char :=
  if k = 0 then s else s.drop (s.length - k)

/-- `"  " * indent`. -/
def repeatStr (n : Nat) (s : String) : String := String.join (List.replicate n s)

/-- `isinstance(x, (int, float, bool, str)) and (not isinstance(x, str) or
len(x) < 20)`: the per-element guard of the short inline-array branch. -/
def isInlineScalar : Value → Bool
  | .int _ => true
  | .float _ _ => true
  | .bool _ => true
  | .str s => s.data.length < 20
  | _ => false

/-- `k in d` for a Python dict. -/
def objHasKey (fs : List (String × Value)) (k : String) : Bool :=
  fs.any (fun p => p.1 = k)

/-- `format_value(value, max_data, max_str, indent)`: project a decoded value
to bounded text.  Faithful to the source, including: verbatim pass-through of
preview strings (leading `<` and an embedded `...`), prefix+`...`+suffix
truncation of long strings (no character count is appended), `<array[N]: [v0,
v1, v2, v3]...>` previews of long arrays, `<object[N]>` previews of long
non-SOA dicts, the ≤10-element/80-column inline array branch, and the SOA
header plus 4-record preview.  A dict that has a `_SOA_` key but lacks
`_records_`/`_dims_`, or whose `_records_` is not a list, makes Python raise
`KeyError`/`TypeError` here; those unreachable-for-decoder-output cases are
rendered as error sentinels, and no theorem touches them. -/
def format_value (value : Value) (max_data max_str : Nat) (indent : Nat) : String :=
  let prefixStr := repeatStr indent "  "
  match value with
  | .null => "null"
  | .bool b => if b then "true" else "false"
  | .str s =>
    if s.data.head? = some '<' && hasSub "...".data s.data then s
    else
      let displayed :=
        if s.data.length ≤ max_str then s.data
        else s.data.take (max_str / 2) ++ "...".data ++ pyTail s.data (max_str / 2)
      "\"" ++ String.mk displayed ++ "\""
  | .int n => toString n
  | .float w bits => floatRepr w bits
  | .list vs =>
    if vs.isEmpty then "[]"
    else if vs.length > max_data then
      "<array[" ++ toString vs.length ++ "]: " ++ pyRepr (.list (vs.take 4)) ++ "...>"
    else
      let multiline :=
        "[\n" ++
        String.intercalate ",\n"
          (vs.attach.map (fun x => prefixStr ++ "  " ++ format_value x.val max_data max_str (indent + 1))) ++
        "\n" ++ prefixStr ++ "]"
      if vs.length ≤ 10 && vs.all isInlineScalar then
        let short :=
          "[" ++
          String.intercalate ", " (vs.attach.map (fun x => format_value x.val max_data max_str 0)) ++
          "]"
        if short.length < 80 then short else multiline
      else multiline
  | .obj fs =>
    if fs.isEmpty then "\x7b\x7d"
    else if objHasKey fs "_SOA_" then
      match hrec : fs.find? (fun p => p.1 = "_records_") with
      | none => "<KeyError>"
      | some p =>
        match hp2 : p.2 with
        | .list records =>
          let layout := match fs.find? (fun q => q.1 = "_SOA_") with
            | some q => pyStr q.2
            | none => "<KeyError>"
          let dims := match fs.find? (fun q => q.1 = "_dims_") with
            | some q => pyStr q.2
            | none => "<KeyError>"
          let header := "<SOA " ++ layout ++ " dims=" ++ dims ++ ">"
          if records.length > max_data then
            header ++ " [\n" ++
            String.intercalate ",\n"
              ((records.take 4).attach.map
                (fun x => prefixStr ++ "  " ++ format_value x.val max_data max_str (indent + 1))) ++
            ",\n" ++ prefixStr ++ "  ...(" ++ toString ((records.length : Int) - 4) ++ " more)\n" ++
            prefixStr ++ "]"
          else
            header ++ " [\n" ++
            String.intercalate ",\n"
              (records.attach.map
                (fun x => prefixStr ++ "  " ++ format_value x.val max_data max_str (indent + 1))) ++
            "\n" ++ prefixStr ++ "]"
        | _ => "<TypeError>"
    else if fs.length > max_data then "<object[" ++ toString fs.length ++ "]>"
    else
      "\x7b\n" ++
      String.intercalate ",\n"
        (fs.attach.map (fun x =>
          prefixStr ++ "  \"" ++ x.val.1 ++ "\": " ++ format_value x.val.2 max_data max_str (indent + 1))) ++
      "\n" ++ prefixStr ++ "\x7d"
termination_by sizeOf value
decreasing_by
  · have h1 := List.sizeOf_lt_of_mem x.property
    simp only [Value.list.sizeOf_spec]
    omega
  · have h1 := List.sizeOf_lt_of_mem x.property
    simp only [Value.list.sizeOf_spec]
    omega
  · have h0 : x.val ∈ records := List.take_subset 4 records x.property
    have h1 := List.sizeOf_lt_of_mem h0
    have h2 := List.sizeOf_lt_of_mem (List.mem_of_find?_eq_some hrec)
    have h3 : sizeOf p.2 < sizeOf p := by
      obtain ⟨a, b⟩ := p
      simp only [Prod.mk.sizeOf_spec]
      omega
    rw [hp2] at h3
    simp only [Value.list.sizeOf_spec, Value.obj.sizeOf_spec] at *
    omega
  · have h1 := List.sizeOf_lt_of_mem x.property
    have h2 := List.sizeOf_lt_of_mem (List.mem_of_find?_eq_some hrec)
    have h3 : sizeOf p.2 < sizeOf p := by
      obtain ⟨a, b⟩ := p
      simp only [Prod.mk.sizeOf_spec]
      omega
    rw [hp2] at h3
    simp only [Value.list.sizeOf_spec, Value.obj.sizeOf_spec] at *
    omega
  · have h1 := List.sizeOf_lt_of_mem x.property
    have h2 : sizeOf x.val.2 < sizeOf x.val := by
      obtain ⟨a, b⟩ := x.val
      simp only [Prod.mk.sizeOf_spec]
      omega
    simp only [Value.obj.sizeOf_spec] at *
    omega

/-! ### Basic lemmas about the byte-level primitives -/

theorem pySlice_length (l : List α) (a b : Nat) : (pySlice l a b).length = min b l.length - a := by
  simp [pySlice]

theorem pySliceI_natCast (l : List α) (a b : Nat) :
    pySliceI l (a : Int) (b : Int) = pySlice l a b := by
  simp only [pySliceI, pySlice, clampIdx]
  rw [if_neg (by omega), if_neg (by omega)]
  simp only [Int.toNat_natCast]
  have h1 : l.take (min b l.length) = l.take b := by
    rcases Nat.le_total b l.length with h | h
    · rw [Nat.min_eq_left h]
    · rw [Nat.min_eq_right h, List.take_length, List.take_of_length_le h]
  rw [h1]
  rcases Nat.le_total a l.length with h | h
  · rw [Nat.min_eq_left h]
  · rw [Nat.min_eq_right h]
    have hlen : (l.take b).length ≤ l.length := by
      rw [List.length_take]
      omega
    rw [List.drop_eq_nil_of_le hlen, List.drop_eq_nil_of_le (by omega)]

theorem read_ok (r : Reader) (n : Nat) (h : r.pos + n ≤ r.data.length) :
    read n r = .ok (pySlice r.data r.pos (r.pos + n), ⟨r.data, r.pos + n, r.maxData, r.big⟩) := by
  simp only [read, readI]
  rw [if_neg (by push_cast; omega)]
  have h1 : ((r.pos : Int) + n) = ((r.pos + n : Nat) : Int) := by push_cast; ring
  rw [h1, pySliceI_natCast, Int.toNat_natCast]

theorem read_eof (r : Reader) (n : Nat) (h : r.data.length < r.pos + n) :
    read n r = .error (.eofError r.pos) := by
  simp only [read, readI]
  rw [if_pos (by push_cast; omega)]

theorem make_markers_entry_fmt (big : Bool) (p : Nat × (Nat × Option Fmt))
    (hp : p ∈ make_markers big) (fmt : Fmt) (h : p.2.2 = some fmt) :
    fmt.size = p.2.1 ∧ fmt.big = big := by
  fin_cases hp <;> simp_all <;> (subst h; exact ⟨rfl, rfl⟩)

theorem markersKey_fmt (big : Bool) (m : List Nat) (size : Nat) (fmt : Fmt)
    (h : markersKey big m = some (size, some fmt)) : fmt.size = size ∧ fmt.big = big := by
  match m with
  | [] => simp [markersKey] at h
  | [b] =>
    simp only [markersKey, Option.map_eq_some'] at h
    obtain ⟨p, hfind, hsnd⟩ := h
    have hp := List.mem_of_find?_eq_some hfind
    have := make_markers_entry_fmt big p hp fmt (by rw [hsnd])
    rw [hsnd] at this
    exact this
  | _ :: _ :: _ => simp [markersKey] at h

theorem struct_unpack_ok (fmt : Fmt) (b : List Nat) (h : b.length = fmt.size) :
    struct_unpack (some fmt) b = .ok (fmtValue fmt b) := by
  simp [struct_unpack, h]

theorem okBind (a : α) (f : α → Except ε β) :
    (Except.ok a >>= f) = f a := rfl

theorem errBind (e : ε) (f : α → Except ε β) :
    ((Except.error e : Except ε α) >>= f) = Except.error e := rfl

theorem pureBind (a : α) (f : α → Except ε β) :
    ((pure a : Except ε α) >>= f) = f a := rfl

/-- Sequential fixed-width batch reads decode the consecutive byte slices and
advance the cursor by `k * size`. -/
theorem readUnpackSeq_ok (fmt : Fmt) (data : List Nat) (maxd : Nat) (big : Bool) (k : Nat) :
    ∀ (pos : Nat), pos + k * fmt.size ≤ data.length →
    readUnpackSeq fmt.size (some fmt) k ⟨data, pos, maxd, big⟩ =
      .ok ((List.range k).map
            (fun i => fmtValue fmt (pySlice data (pos + i * fmt.size) (pos + i * fmt.size + fmt.size))),
           ⟨data, pos + k * fmt.size, maxd, big⟩) := by
  induction k with
  | zero =>
    intro pos h
    simp only [readUnpackSeq, List.range_zero, List.map_nil, Nat.zero_mul, Nat.add_zero]
  | succ k ih =>
    intro pos h
    have hmul : (k + 1) * fmt.size = k * fmt.size + fmt.size := by ring
    have hsz : pos + fmt.size + k * fmt.size ≤ data.length := by omega
    have hs : pos + fmt.size ≤ data.length := by omega
    have hrd := read_ok ⟨data, pos, maxd, big⟩ fmt.size hs
    simp only [readUnpackSeq, hrd, okBind]
    have hlen : (pySlice data pos (pos + fmt.size)).length = fmt.size := by
      rw [pySlice_length]
      omega
    rw [struct_unpack_ok fmt _ hlen]
    simp only [okBind, ih (pos + fmt.size) hsz]
    congr 1
    refine Prod.ext ?_ ?_
    · simp only [List.range_succ_eq_map, List.map_cons, List.map_map]
      congr 1
      · norm_num
      · apply List.map_congr_left
        intro i _
        simp only [Function.comp, Nat.succ_eq_add_one]
        have e1 : pos + fmt.size + i * fmt.size = pos + (i + 1) * fmt.size := by ring
        rw [e1]
    · simp only [Reader.mk.injEq, true_and, and_true]
      omega

/-- Sequential boolean batch reads decode one byte per element and advance the
cursor by `k`. -/
theorem readBoolSeq_ok (data : List Nat) (maxd : Nat) (big : Bool) (k : Nat) :
    ∀ (pos : Nat), pos + k ≤ data.length →
    readBoolSeq k ⟨data, pos, maxd, big⟩ =
      .ok ((List.range k).map
            (fun i => Value.bool (pySlice data (pos + i) (pos + i + 1) = [84])),
           ⟨data, pos + k, maxd, big⟩) := by
  induction k with
  | zero =>
    intro pos h
    simp only [readBoolSeq, List.range_zero, List.map_nil, Nat.add_zero]
  | succ k ih =>
    intro pos h
    have hs : pos + 1 ≤ data.length := by omega
    have hrd := read_ok ⟨data, pos, maxd, big⟩ 1 hs
    simp only [readBoolSeq, hrd, okBind, ih (pos + 1) (by omega)]
    congr 1
    refine Prod.ext ?_ ?_
    · simp only [List.range_succ_eq_map, List.map_cons, List.map_map]
      congr 1
      apply List.map_congr_left
      intro a _
      have e1 : pos + 1 + a = pos + (a + 1) := by ring
      simp only [Function.comp, Nat.succ_eq_add_one, e1]
    · simp only [Reader.mk.injEq, true_and, and_true]
      omega

theorem readI_coe (n : Nat) (r : Reader) : readI (n : Int) r = read n r := rfl

/-- The full-materialization branch of `read_typed_values` for a numeric
marker: within budget and with all bytes available, all `count` elements are
decoded and the cursor advances over the whole element payload. -/
theorem rtv_numeric_full (data : List Nat) (pos maxd : Nat) (big : Bool) (m : List Nat)
    (count size : Nat) (fmt : Fmt)
    (hTF : ¬(m = [84] ∨ m = [70]))
    (hm : markersKey big m = some (size, some fmt))
    (hbytes : pos + count * size ≤ data.length)
    (hbudget : count ≤ maxd) :
    read_typed_values m (count : Int) ⟨data, pos, maxd, big⟩ =
      .ok (.list ((List.range count).map
            (fun i => fmtValue fmt (pySlice data (pos + i * size) (pos + i * size + size)))),
           ⟨data, pos + count * size, maxd, big⟩) := by
  obtain ⟨hsz, hbig⟩ := markersKey_fmt big m size fmt hm
  subst hsz
  have hcs : ((count : Int) * (fmt.size : Int)) = ((count * fmt.size : Nat) : Int) := by
    push_cast
    ring
  simp only [read_typed_values, if_neg hTF, hm]
  rw [if_neg (by
    simp only [Reader.remaining]
    rw [hcs]
    omega)]
  rw [if_neg (by omega)]
  rw [Int.toNat_natCast]
  rw [readUnpackSeq_ok fmt data maxd big count pos hbytes]
  rfl

/-- The budget-preview branch of `read_typed_values` for a numeric marker:
over budget but with all bytes available, the first `min 8 count` elements are
decoded, the remaining element bytes are skipped, and the cursor still
advances over the whole element payload. -/
theorem rtv_numeric_preview (data : List Nat) (pos maxd : Nat) (big : Bool) (m : List Nat)
    (count size : Nat) (fmt : Fmt)
    (hTF : ¬(m = [84] ∨ m = [70]))
    (hm : markersKey big m = some (size, some fmt))
    (hbytes : pos + count * size ≤ data.length)
    (hbudget : maxd < count) :
    read_typed_values m (count : Int) ⟨data, pos, maxd, big⟩ =
      .ok (.str ("<" ++ toString ((count : Nat) : Int) ++ " values: " ++
                 pyRepr (.list (((List.range (min 8 count)).map
                   (fun i => fmtValue fmt (pySlice data (pos + i * size) (pos + i * size + size)))).take 4)) ++
                 "...>"),
           ⟨data, pos + count * size, maxd, big⟩) := by
  obtain ⟨hsz, hbig⟩ := markersKey_fmt big m size fmt hm
  subst hsz
  have hcs : ((count : Int) * (fmt.size : Int)) = ((count * fmt.size : Nat) : Int) := by
    push_cast
    ring
  have hminc : min 8 count ≤ count := Nat.min_le_right 8 count
  have hminbytes : pos + (min 8 count) * fmt.size ≤ data.length := by
    have := Nat.mul_le_mul_right fmt.size hminc
    omega
  simp only [read_typed_values, if_neg hTF, hm]
  rw [if_neg (by
    simp only [Reader.remaining]
    rw [hcs]
    omega)]
  rw [if_pos (by omega)]
  have hmin : (min (8 : Int) ((count : Nat) : Int)).toNat = min 8 count := by omega
  rw [hmin, readUnpackSeq_ok fmt data maxd big (min 8 count) pos hminbytes]
  simp only [okBind, List.length_map, List.length_range]
  have hsk : ((count : Int) - (min 8 count : Nat)) * (fmt.size : Int) =
      (((count - min 8 count) * fmt.size : Nat) : Int) := by
    push_cast [hminc]
    ring
  rw [hsk, readI_coe]
  have hskbytes : (pos + (min 8 count) * fmt.size) + (count - min 8 count) * fmt.size ≤ data.length := by
    have : (min 8 count) * fmt.size + (count - min 8 count) * fmt.size = count * fmt.size := by
      rw [← Nat.add_mul]
      congr 1
      omega
    omega
  rw [read_ok ⟨data, pos + (min 8 count) * fmt.size, maxd, big⟩ _ hskbytes]
  simp only [okBind]
  congr 2
  simp only [Reader.mk.injEq, true_and, and_true]
  have : (min 8 count) * fmt.size + (count - min 8 count) * fmt.size = count * fmt.size := by
    rw [← Nat.add_mul]
    congr 1
    omega
  omega

/-- The boolean branch of `read_typed_values`: one byte per element, no
budget check, no truncation preview. -/
theorem rtv_bool (data : List Nat) (pos maxd : Nat) (big : Bool) (m : List Nat) (count : Nat)
    (hTF : m = [84] ∨ m = [70])
    (hbytes : pos + count ≤ data.length) :
    read_typed_values m (count : Int) ⟨data, pos, maxd, big⟩ =
      .ok (.list ((List.range count).map
            (fun i => Value.bool (pySlice data (pos + i) (pos + i + 1) = [84]))),
           ⟨data, pos + count, maxd, big⟩) := by
  simp only [read_typed_values, if_pos hTF, Int.toNat_natCast,
    readBoolSeq_ok data maxd big count pos hbytes, okBind]

/-- The truncation branch of `read_typed_values` for a numeric marker:
declared bytes exceed the remaining buffer, the constant string
`"<truncated>"` is returned and nothing is consumed. -/
theorem rtv_truncated (r : Reader) (m : List Nat) (count : Int) (size : Nat) (fmt : Option Fmt)
    (hTF : ¬(m = [84] ∨ m = [70]))
    (hm : markersKey r.big m = some (size, fmt))
    (hgt : count * size > (r.remaining : Int)) :
    read_typed_values m count r = .ok (.str "<truncated>", r) := by
  simp only [read_typed_values, if_neg hTF, hm]
  rw [if_pos hgt]

/-- The truncation branch of `read_nd_array`. -/
theorem nd_truncated (r : Reader) (elem : List Nat) (dims : List Nat) (cm : Bool)
    (size : Nat) (fmt : Option Fmt)
    (hm : markersKey r.big elem = some (size, fmt))
    (hgt : (dims.foldl (· * ·) 1) * size > r.remaining) :
    read_nd_array elem dims cm r =
      .ok (.str ("<" ++ intListRepr dims ++ " " ++ (if cm then "col" else "row") ++ ": truncated>"), r) := by
  simp only [read_nd_array, hm]
  rw [if_pos hgt]

/-- The full-materialization branch of `read_nd_array`. -/
theorem nd_full (data : List Nat) (pos maxd : Nat) (big : Bool) (elem : List Nat)
    (dims : List Nat) (cm : Bool) (size : Nat) (fmt : Fmt)
    (hm : markersKey big elem = some (size, some fmt))
    (hbytes : pos + (dims.foldl (· * ·) 1) * size ≤ data.length)
    (hbudget : dims.foldl (· * ·) 1 ≤ maxd) :
    read_nd_array elem dims cm ⟨data, pos, maxd, big⟩ =
      .ok (.list ((List.range (dims.foldl (· * ·) 1)).map
            (fun i => fmtValue fmt (pySlice data (pos + i * size) (pos + i * size + size)))),
           ⟨data, pos + (dims.foldl (· * ·) 1) * size, maxd, big⟩) := by
  obtain ⟨hsz, hbig⟩ := markersKey_fmt big elem size fmt hm
  subst hsz
  simp only [read_nd_array, hm]
  rw [if_neg (by simp only [Reader.remaining]; omega)]
  rw [if_neg (by omega)]
  rw [readUnpackSeq_ok fmt data maxd big (dims.foldl (· * ·) 1) pos hbytes]
  rfl

/-- The budget-preview branch of `read_nd_array`: over budget but with all
bytes available, the cursor still advances over the whole element payload. -/
theorem nd_preview (data : List Nat) (pos maxd : Nat) (big : Bool) (elem : List Nat)
    (dims : List Nat) (cm : Bool) (size : Nat) (fmt : Fmt)
    (hm : markersKey big elem = some (size, some fmt))
    (hbytes : pos + (dims.foldl (· * ·) 1) * size ≤ data.length)
    (hbudget : maxd < dims.foldl (· * ·) 1) :
    read_nd_array elem dims cm ⟨data, pos, maxd, big⟩ =
      .ok (.str ("<" ++ intListRepr dims ++ " " ++ (if cm then "col" else "row") ++ ": " ++
                 pyRepr (.list (((List.range (min 8 (dims.foldl (· * ·) 1))).map
                   (fun i => fmtValue fmt (pySlice data (pos + i * size) (pos + i * size + size)))).take 4)) ++
                 "...>"),
           ⟨data, pos + (dims.foldl (· * ·) 1) * size, maxd, big⟩) := by
  obtain ⟨hsz, hbig⟩ := markersKey_fmt big elem size fmt hm
  subst hsz
  have hminc : min 8 (dims.foldl (· * ·) 1) ≤ dims.foldl (· * ·) 1 :=
    Nat.min_le_right 8 (dims.foldl (· * ·) 1)
  have hminbytes : pos + (min 8 (dims.foldl (· * ·) 1)) * fmt.size ≤ data.length := by
    have := Nat.mul_le_mul_right fmt.size hminc
    omega
  simp only [read_nd_array, hm]
  rw [if_neg (by simp only [Reader.remaining]; omega)]
  rw [if_pos (by omega)]
  rw [readUnpackSeq_ok fmt data maxd big (min 8 (dims.foldl (· * ·) 1)) pos hminbytes]
  simp only [okBind, List.length_map, List.length_range]
  have heqm : (min 8 (dims.foldl (· * ·) 1)) * fmt.size +
      (dims.foldl (· * ·) 1 - min 8 (dims.foldl (· * ·) 1)) * fmt.size =
      (dims.foldl (· * ·) 1) * fmt.size := by
    rw [← Nat.add_mul]
    congr 1
    omega
  have hskbytes : (pos + (min 8 (dims.foldl (· * ·) 1)) * fmt.size) +
      (dims.foldl (· * ·) 1 - min 8 (dims.foldl (· * ·) 1)) * fmt.size ≤ data.length := by
    omega
  rw [read_ok ⟨data, pos + (min 8 (dims.foldl (· * ·) 1)) * fmt.size, maxd, big⟩ _ hskbytes]
  simp only [okBind]
  congr 2
  simp only [Reader.mk.injEq, true_and, and_true]
  omega

/-! ### Claims C7, C3, C2, C4 -/

/-- C7: truncating a buffer mid-read produces `EOFError` whose reported offset
equals the position at which the read began (the cursor before any byte of
that read was consumed); in particular a scalar read through `read_int` whose
payload overruns the buffer reports the offset of the payload read. -/
theorem claim_c7_error_locality :
    (∀ (r : Reader) (n : Nat), r.data.length < r.pos + n →
      read n r = .error (.eofError r.pos)) ∧
    (∀ (r : Reader) (m : List Nat) (size : Nat) (fmt : Option Fmt),
      markersKey r.big m = some (size, fmt) →
      r.data.length < r.pos + size →
      read_int (some m) r = .error (.eofError r.pos)) := by
  constructor
  · exact read_eof
  · intro r m size fmt hm h
    simp only [read_int, pureBind, okBind]
    rw [hm]
    simp only [read_eof r size h, errBind]

/-- Witness for C7 at concrete inputs. -/
theorem claim_c7_witness :
    read 2 ⟨[1, 2], 1, 100, false⟩ = .error (.eofError 1) ∧
    read_int (some [85]) ⟨[], 0, 100, false⟩ = .error (.eofError 0) :=
  ⟨claim_c7_error_locality.1 ⟨[1, 2], 1, 100, false⟩ 2 (by decide),
   claim_c7_error_locality.2 ⟨[], 0, 100, false⟩ [85] 1 (some ⟨false, 1, .uint⟩) rfl (by decide)⟩

/-- C3, counterexample to the claim as stated: a `U`-typed array declaring 5
bytes with only 2 remaining decodes to the constant preview `"<truncated>"`,
which reports neither the declared byte count (5) nor the available byte
count (2). -/
theorem claim_c3_counterexample :
    read_typed_values [85] 5 ⟨[1, 2], 0, 100, false⟩ =
      .ok (.str "<truncated>", ⟨[1, 2], 0, 100, false⟩) ∧
    hasSub "5".data "<truncated>".data = false ∧
    hasSub "2".data "<truncated>".data = false :=
  ⟨rfl, rfl, rfl⟩

/-- C3, amended: a typed or N-dimensional numeric array whose declared byte
length exceeds the remaining buffer decodes to a truncated-preview string
(`"<truncated>"` for the flat typed path; dims and layout for the N-d path,
without byte counts) and raises no error; nothing is consumed. -/
theorem claim_c3_truncated_preview :
    (∀ (r : Reader) (m : List Nat) (count : Int) (size : Nat) (fmt : Option Fmt),
      ¬(m = [84] ∨ m = [70]) →
      markersKey r.big m = some (size, fmt) →
      count * size > (r.remaining : Int) →
      read_typed_values m count r = .ok (.str "<truncated>", r)) ∧
    (∀ (r : Reader) (elem : List Nat) (dims : List Nat) (cm : Bool) (size : Nat) (fmt : Option Fmt),
      markersKey r.big elem = some (size, fmt) →
      (dims.foldl (· * ·) 1) * size > r.remaining →
      read_nd_array elem dims cm r =
        .ok (.str ("<" ++ intListRepr dims ++ " " ++ (if cm then "col" else "row") ++ ": truncated>"), r)) :=
  ⟨rtv_truncated, nd_truncated⟩

/-- Witness for C3 at concrete inputs. -/
theorem claim_c3_witness :
    read_typed_values [85] 5 ⟨[1, 2], 0, 100, false⟩ =
      .ok (.str "<truncated>", ⟨[1, 2], 0, 100, false⟩) ∧
    read_nd_array [85] [2, 3] true ⟨[1, 2], 0, 100, false⟩ =
      .ok (.str ("<" ++ intListRepr [2, 3] ++ " " ++ (if true then "col" else "row") ++ ": truncated>"),
           ⟨[1, 2], 0, 100, false⟩) :=
  ⟨claim_c3_truncated_preview.1 ⟨[1, 2], 0, 100, false⟩ [85] 5 1 (some ⟨false, 1, .uint⟩)
     (by decide) rfl (by decide),
   claim_c3_truncated_preview.2 ⟨[1, 2], 0, 100, false⟩ [85] [2, 3] true 1 (some ⟨false, 1, .uint⟩)
     rfl (by decide)⟩

/-- C2, counterexample to the claim as stated: with max-items budget 2, a
boolean-typed array of count 3 with all bytes available materializes all 3
elements in full instead of returning a preview. -/
theorem claim_c2_counterexample :
    2 < 3 ∧
    read_typed_values [84] 3 ⟨[84, 84, 84], 0, 2, false⟩ =
      .ok (.list [.bool true, .bool true, .bool true], ⟨[84, 84, 84], 3, 2, false⟩) :=
  ⟨by decide, rfl⟩

/-- C2, amended: for numeric/char/byte element markers with all bytes
available, a count within the max-items budget materializes all elements and
a count over the budget returns a preview (declared count and first up-to-4
decoded values); boolean-typed arrays ignore the budget and always
materialize in full. -/
theorem claim_c2_truncation_boundary :
    (∀ (data : List Nat) (pos maxd : Nat) (big : Bool) (m : List Nat) (count size : Nat) (fmt : Fmt),
      ¬(m = [84] ∨ m = [70]) →
      markersKey big m = some (size, some fmt) →
      pos + count * size ≤ data.length →
      (count ≤ maxd →
        read_typed_values m (count : Int) ⟨data, pos, maxd, big⟩ =
          .ok (.list ((List.range count).map
                (fun i => fmtValue fmt (pySlice data (pos + i * size) (pos + i * size + size)))),
               ⟨data, pos + count * size, maxd, big⟩)) ∧
      (maxd < count →
        read_typed_values m (count : Int) ⟨data, pos, maxd, big⟩ =
          .ok (.str ("<" ++ toString ((count : Nat) : Int) ++ " values: " ++
                     pyRepr (.list (((List.range (min 8 count)).map
                       (fun i => fmtValue fmt (pySlice data (pos + i * size) (pos + i * size + size)))).take 4)) ++
                     "...>"),
               ⟨data, pos + count * size, maxd, big⟩))) ∧
    (∀ (data : List Nat) (pos maxd : Nat) (big : Bool) (m : List Nat) (count : Nat),
      (m = [84] ∨ m = [70]) →
      pos + count ≤ data.length →
      read_typed_values m (count : Int) ⟨data, pos, maxd, big⟩ =
        .ok (.list ((List.range count).map
              (fun i => Value.bool (pySlice data (pos + i) (pos + i + 1) = [84]))),
             ⟨data, pos + count, maxd, big⟩)) := by
  refine ⟨?_, ?_⟩
  · intro data pos maxd big m count size fmt hTF hm hbytes
    exact ⟨rtv_numeric_full data pos maxd big m count size fmt hTF hm hbytes,
           rtv_numeric_preview data pos maxd big m count size fmt hTF hm hbytes⟩
  · intro data pos maxd big m count hTF hbytes
    exact rtv_bool data pos maxd big m count hTF hbytes

/-- Witness for C2: budget 2; a count-2 `U` array decodes in full, a count-3
`U` array decodes to a preview, and a count-3 boolean array still decodes in
full. -/
theorem claim_c2_witness :
    read_typed_values [85] ((2 : Nat) : Int) ⟨[9, 8], 0, 2, false⟩ =
      .ok (.list ((List.range 2).map
            (fun i => fmtValue ⟨false, 1, .uint⟩ (pySlice [9, 8] (0 + i * 1) (0 + i * 1 + 1)))),
           ⟨[9, 8], 0 + 2 * 1, 2, false⟩) ∧
    read_typed_values [85] ((3 : Nat) : Int) ⟨[9, 8, 7], 0, 2, false⟩ =
      .ok (.str ("<" ++ toString ((3 : Nat) : Int) ++ " values: " ++
                 pyRepr (.list (((List.range (min 8 3)).map
                   (fun i => fmtValue ⟨false, 1, .uint⟩ (pySlice [9, 8, 7] (0 + i * 1) (0 + i * 1 + 1)))).take 4)) ++
                 "...>"),
           ⟨[9, 8, 7], 0 + 3 * 1, 2, false⟩) ∧
    read_typed_values [84] ((3 : Nat) : Int) ⟨[84, 70, 84], 0, 2, false⟩ =
      .ok (.list ((List.range 3).map
            (fun i => Value.bool (pySlice [84, 70, 84] (0 + i) (0 + i + 1) = [84]))),
           ⟨[84, 70, 84], 0 + 3, 2, false⟩) :=
  ⟨(claim_c2_truncation_boundary.1 [9, 8] 0 2 false [85] 2 1 ⟨false, 1, .uint⟩
      (by decide) rfl (by decide)).1 (by decide),
   (claim_c2_truncation_boundary.1 [9, 8, 7] 0 2 false [85] 3 1 ⟨false, 1, .uint⟩
      (by decide) rfl (by decide)).2 (by decide),
   claim_c2_truncation_boundary.2 [84, 70, 84] 0 2 false [84] 3 (by decide) (by decide)⟩

/-- C4: whenever a typed or N-dimensional array value's complete encoded span
is present in the buffer, decoding it — whether materialized in full or
replaced by a budget preview (whose skipped element bytes are consumed and
discarded) — leaves the cursor exactly at the first byte after the span, so a
value concatenated after it is decoded from the correct position. -/
theorem claim_c4_cursor_conservation :
    (∀ (data : List Nat) (pos maxd : Nat) (big : Bool) (m : List Nat) (count size : Nat) (fmt : Fmt),
      ¬(m = [84] ∨ m = [70]) →
      markersKey big m = some (size, some fmt) →
      pos + count * size ≤ data.length →
      ∃ v, read_typed_values m (count : Int) ⟨data, pos, maxd, big⟩ =
        .ok (v, ⟨data, pos + count * size, maxd, big⟩)) ∧
    (∀ (data : List Nat) (pos maxd : Nat) (big : Bool) (m : List Nat) (count : Nat),
      (m = [84] ∨ m = [70]) →
      pos + count ≤ data.length →
      ∃ v, read_typed_values m (count : Int) ⟨data, pos, maxd, big⟩ =
        .ok (v, ⟨data, pos + count, maxd, big⟩)) ∧
    (∀ (data : List Nat) (pos maxd : Nat) (big : Bool) (elem : List Nat) (dims : List Nat)
       (cm : Bool) (size : Nat) (fmt : Fmt),
      markersKey big elem = some (size, some fmt) →
      pos + (dims.foldl (· * ·) 1) * size ≤ data.length →
      ∃ v, read_nd_array elem dims cm ⟨data, pos, maxd, big⟩ =
        .ok (v, ⟨data, pos + (dims.foldl (· * ·) 1) * size, maxd, big⟩)) := by
  refine ⟨?_, ?_, ?_⟩
  · intro data pos maxd big m count size fmt hTF hm hbytes
    rcases Nat.le_total count maxd with hb | hb
    · exact ⟨_, rtv_numeric_full data pos maxd big m count size fmt hTF hm hbytes hb⟩
    · rcases Nat.eq_or_lt_of_le hb with hb' | hb'
      · exact ⟨_, rtv_numeric_full data pos maxd big m count size fmt hTF hm hbytes (by omega)⟩
      · exact ⟨_, rtv_numeric_preview data pos maxd big m count size fmt hTF hm hbytes hb'⟩
  · intro data pos maxd big m count hTF hbytes
    exact ⟨_, rtv_bool data pos maxd big m count hTF hbytes⟩
  · intro data pos maxd big elem dims cm size fmt hm hbytes
    rcases Nat.le_total (dims.foldl (· * ·) 1) maxd with hb | hb
    · exact ⟨_, nd_full data pos maxd big elem dims cm size fmt hm hbytes hb⟩
    · rcases Nat.eq_or_lt_of_le hb with hb' | hb'
      · exact ⟨_, nd_full data pos maxd big elem dims cm size fmt hm hbytes (by omega)⟩
      · exact ⟨_, nd_preview data pos maxd big elem dims cm size fmt hm hbytes hb'⟩

/-- Witness for C4: a previewed count-3 `U` array under budget 2 still leaves
the cursor at byte 3; a boolean array and an N-d array behave likewise. -/
theorem claim_c4_witness :
    (∃ v, read_typed_values [85] ((3 : Nat) : Int) ⟨[9, 8, 7, 66], 0, 2, false⟩ =
      .ok (v, ⟨[9, 8, 7, 66], 0 + 3 * 1, 2, false⟩)) ∧
    (∃ v, read_typed_values [84] ((2 : Nat) : Int) ⟨[84, 70, 5], 0, 2, false⟩ =
      .ok (v, ⟨[84, 70, 5], 0 + 2, 2, false⟩)) ∧
    (∃ v, read_nd_array [85] [2, 2] false ⟨[1, 2, 3, 4, 9], 0, 100, false⟩ =
      .ok (v, ⟨[1, 2, 3, 4, 9], 0 + ([2, 2].foldl (· * ·) 1) * 1, 100, false⟩)) :=
  ⟨claim_c4_cursor_conservation.1 [9, 8, 7, 66] 0 2 false [85] 3 1 ⟨false, 1, .uint⟩
     (by decide) rfl (by decide),
   claim_c4_cursor_conservation.2.1 [84, 70, 5] 0 2 false [84] 2 (by decide) (by decide),
   claim_c4_cursor_conservation.2.2 [1, 2, 3, 4, 9] 0 100 false [85] [2, 2] false 1 ⟨false, 1, .uint⟩
     rfl (by decide)⟩

/-! ### UTF-8 round trip (for C5) -/

set_option maxRecDepth 10000 in
theorem decode_encodeChar (c : Char) (rest : List Nat) :
    decodeUtf8Replace (encodeChar c ++ rest) = c :: decodeUtf8Replace rest := by
  have hv : c.toNat < 55296 ∨ (57344 ≤ c.toNat ∧ c.toNat < 1114112) := c.valid
  by_cases h1 : c.toNat < 128
  · have he : encodeChar c = [c.toNat] := by rw [encodeChar, if_pos h1]
    rw [he, List.cons_append, List.nil_append, decodeUtf8Replace.eq_def]
    simp only [if_pos h1]
    rw [Char.ofNat_toNat]
  by_cases h2 : c.toNat < 2048
  · have he : encodeChar c = [192 + c.toNat / 64, 128 + c.toNat % 64] := by
      rw [encodeChar, if_neg h1, if_pos h2]
    rw [he]
    show decodeUtf8Replace ((192 + c.toNat / 64) :: (128 + c.toNat % 64) :: rest) = _
    rw [decodeUtf8Replace.eq_def]
    have hc1 : ¬(192 + c.toNat / 64 < 128) := by omega
    have hc2 : 194 ≤ 192 + c.toNat / 64 ∧ 192 + c.toNat / 64 ≤ 223 := ⟨by omega, by omega⟩
    have hc3 : isCont (128 + c.toNat % 64) = true := by
      simp only [isCont, Bool.and_eq_true, decide_eq_true_eq]
      omega
    simp only [if_neg hc1, if_pos hc2, if_pos hc3]
    congr 1
    have hvv : (192 + c.toNat / 64 - 192) * 64 + (128 + c.toNat % 64 - 128) = c.toNat := by omega
    rw [hvv, Char.ofNat_toNat]
  by_cases h3 : c.toNat < 65536
  · have he : encodeChar c =
        [224 + c.toNat / 4096, 128 + (c.toNat / 64) % 64, 128 + c.toNat % 64] := by
      rw [encodeChar, if_neg h1, if_neg h2, if_pos h3]
    rw [he]
    show decodeUtf8Replace
      ((224 + c.toNat / 4096) :: (128 + (c.toNat / 64) % 64) :: (128 + c.toNat % 64) :: rest) = _
    rw [decodeUtf8Replace.eq_def]
    have hc1 : ¬(224 + c.toNat / 4096 < 128) := by omega
    have hc2 : ¬(194 ≤ 224 + c.toNat / 4096 ∧ 224 + c.toNat / 4096 ≤ 223) := by omega
    have hc3 : 224 ≤ 224 + c.toNat / 4096 ∧ 224 + c.toNat / 4096 ≤ 239 := ⟨by omega, by omega⟩
    have hguard : (if 224 + c.toNat / 4096 = 224 then
          160 ≤ 128 + (c.toNat / 64) % 64 && 128 + (c.toNat / 64) % 64 ≤ 191
        else if 224 + c.toNat / 4096 = 237 then
          128 ≤ 128 + (c.toNat / 64) % 64 && 128 + (c.toNat / 64) % 64 ≤ 159
        else isCont (128 + (c.toNat / 64) % 64)) = true := by
      split_ifs with hA hB <;>
        simp only [isCont, Bool.and_eq_true, decide_eq_true_eq] <;>
        rcases hv with hv | ⟨hv1, hv2⟩ <;> omega
    have hc4 : isCont (128 + c.toNat % 64) = true := by
      simp only [isCont, Bool.and_eq_true, decide_eq_true_eq]
      omega
    simp only [if_neg hc1, if_neg hc2, if_pos hc3, if_pos hguard, if_pos hc4]
    congr 1
    have hvv : (224 + c.toNat / 4096 - 224) * 4096 + (128 + (c.toNat / 64) % 64 - 128) * 64 +
        (128 + c.toNat % 64 - 128) = c.toNat := by omega
    rw [hvv, Char.ofNat_toNat]
  · have he : encodeChar c =
        [240 + c.toNat / 262144, 128 + (c.toNat / 4096) % 64, 128 + (c.toNat / 64) % 64,
         128 + c.toNat % 64] := by
      rw [encodeChar, if_neg h1, if_neg h2, if_neg h3]
    rw [he]
    show decodeUtf8Replace
      ((240 + c.toNat / 262144) :: (128 + (c.toNat / 4096) % 64) ::
       (128 + (c.toNat / 64) % 64) :: (128 + c.toNat % 64) :: rest) = _
    rw [decodeUtf8Replace.eq_def]
    have hc1 : ¬(240 + c.toNat / 262144 < 128) := by omega
    have hc2 : ¬(194 ≤ 240 + c.toNat / 262144 ∧ 240 + c.toNat / 262144 ≤ 223) := by omega
    have hc3 : ¬(224 ≤ 240 + c.toNat / 262144 ∧ 240 + c.toNat / 262144 ≤ 239) := by omega
    have hc4 : 240 ≤ 240 + c.toNat / 262144 ∧ 240 + c.toNat / 262144 ≤ 244 :=
      ⟨by omega, by rcases hv with hv | ⟨hv1, hv2⟩ <;> omega⟩
    have hguard : (if 240 + c.toNat / 262144 = 240 then
          144 ≤ 128 + (c.toNat / 4096) % 64 && 128 + (c.toNat / 4096) % 64 ≤ 191
        else if 240 + c.toNat / 262144 = 244 then
          128 ≤ 128 + (c.toNat / 4096) % 64 && 128 + (c.toNat / 4096) % 64 ≤ 143
        else isCont (128 + (c.toNat / 4096) % 64)) = true := by
      split_ifs with hA hB <;>
        simp only [isCont, Bool.and_eq_true, decide_eq_true_eq] <;>
        rcases hv with hv | ⟨hv1, hv2⟩ <;> omega
    have hc5 : isCont (128 + (c.toNat / 64) % 64) = true := by
      simp only [isCont, Bool.and_eq_true, decide_eq_true_eq]
      omega
    have hc6 : isCont (128 + c.toNat % 64) = true := by
      simp only [isCont, Bool.and_eq_true, decide_eq_true_eq]
      omega
    simp only [if_neg hc1, if_neg hc2, if_neg hc3, if_pos hc4, if_pos hguard, if_pos hc5,
      if_pos hc6]
    congr 1
    have hvv : (240 + c.toNat / 262144 - 240) * 262144 + (128 + (c.toNat / 4096) % 64 - 128) * 4096 +
        (128 + (c.toNat / 64) % 64 - 128) * 64 + (128 + c.toNat % 64 - 128) = c.toNat := by omega
    rw [hvv, Char.ofNat_toNat]

theorem decode_encodeStr (s : List Char) : decodeUtf8Replace (encodeStr s) = s := by
  induction s with
  | nil => rfl
  | cons c s ih =>
    show decodeUtf8Replace (encodeChar c ++ encodeStr s) = c :: s
    rw [decode_encodeChar c (encodeStr s), ih]

theorem pySlice_cons_succ (x : α) (l : List α) (a b : Nat) :
    pySlice (x :: l) (a + 1) (b + 1) = pySlice l a b := by
  simp [pySlice]

theorem pySlice_two (x y : α) (l : List α) (n : Nat) :
    pySlice (x :: y :: l) 2 (2 + n) = l.take n := by
  rw [show 2 + n = (n + 1) + 1 from by omega, show (2 : Nat) = 1 + 1 from rfl,
    pySlice_cons_succ, show (1 : Nat) = 0 + 1 from rfl, pySlice_cons_succ]
  simp [pySlice]

/-- C5, counterexample to the claim as stated: the invalid UTF-8 byte `0xFF`
decodes to the Unicode replacement character U+FFFD, not to the Latin-1
character U+00FF a Latin-1 fallback would produce. -/
theorem claim_c5_counterexample :
    read_string ⟨[85, 1, 255], 0, 100, false⟩ =
      .ok ("\uFFFD", ⟨[85, 1, 255], 3, 100, false⟩) ∧
    decodeUtf8Replace [255] = ['\uFFFD'] ∧
    decodeUtf8Replace [255] ≠ [Char.ofNat 255] :=
  ⟨rfl, rfl, by decide⟩

/-- C5, amended: for every payload given to a length-prefixed string read,
decoding never fails — `read_string` succeeds on arbitrary payload bytes,
with invalid sequences replaced (by U+FFFD, per `decodeUtf8Replace`) — and
valid UTF-8 decodes exactly (round trip over the reference encoding). -/
theorem claim_c5_string_decode :
    (∀ (payload rest : List Nat) (maxd : Nat) (big : Bool),
      read_string ⟨85 :: payload.length :: (payload ++ rest), 0, maxd, big⟩ =
        .ok (String.mk (decodeUtf8Replace payload),
             ⟨85 :: payload.length :: (payload ++ rest), 2 + payload.length, maxd, big⟩)) ∧
    (∀ (s : List Char), decodeUtf8Replace (encodeStr s) = s) := by
  constructor
  · intro payload rest maxd big
    have hlen : (85 :: payload.length :: (payload ++ rest)).length =
        2 + payload.length + rest.length := by
      simp
      omega
    have h1 : read 1 ⟨85 :: payload.length :: (payload ++ rest), 0, maxd, big⟩ =
        .ok ([85], ⟨85 :: payload.length :: (payload ++ rest), 0 + 1, maxd, big⟩) := by
      rw [read_ok _ 1 (by simp)]
      rfl
    have hm : markersKey big [85] = some (1, some ⟨big, 1, .uint⟩) := rfl
    have h2 : read 1 ⟨85 :: payload.length :: (payload ++ rest), 0 + 1, maxd, big⟩ =
        .ok ([payload.length], ⟨85 :: payload.length :: (payload ++ rest), 0 + 1 + 1, maxd, big⟩) := by
      rw [read_ok _ 1 (by simp)]
      rfl
    have hfv : fmtValue ⟨big, 1, .uint⟩ [payload.length] = .int payload.length := by
      simp [fmtValue, leNat]
    simp only [read_string, read_int, h1, okBind, hm, h2,
      struct_unpack_ok ⟨big, 1, .uint⟩ [payload.length] rfl, hfv]
    by_cases hp : payload.length = 0
    · rw [if_pos (by exact_mod_cast hp)]
      have hpl : payload = [] := List.eq_nil_of_length_eq_zero hp
      subst hpl
      simp [decodeUtf8Replace]
    · rw [if_neg (by exact_mod_cast hp)]
      rw [readI_coe]
      have h3 : read payload.length
          ⟨85 :: payload.length :: (payload ++ rest), 0 + 1 + 1, maxd, big⟩ =
          .ok (payload, ⟨85 :: payload.length :: (payload ++ rest),
               0 + 1 + 1 + payload.length, maxd, big⟩) := by
        rw [read_ok _ payload.length (by simp; omega)]
        congr 1
        refine Prod.ext ?_ rfl
        show pySlice (85 :: payload.length :: (payload ++ rest)) 2 (2 + payload.length) = payload
        rw [pySlice_two]
        exact List.take_left payload rest
      rw [h3]
      simp only [okBind]
  · exact decode_encodeStr

/-! ### Renderer branch lemmas (for C9, C10) -/

theorem fv_str_sentinel (s : String) (maxd maxs ind : Nat)
    (h1 : s.data.head? = some '<') (h2 : hasSub "...".data s.data = true) :
    format_value (.str s) maxd maxs ind = s := by
  rw [format_value.eq_def]
  simp only [h1, h2]
  rw [if_pos (by simp)]

theorem fv_str_quoted (s : String) (maxd maxs ind : Nat)
    (h : (decide (s.data.head? = some '<') && hasSub "...".data s.data) = false) :
    format_value (.str s) maxd maxs ind =
      "\"" ++ String.mk (if s.data.length ≤ maxs then s.data
        else s.data.take (maxs / 2) ++ "...".data ++ pyTail s.data (maxs / 2)) ++ "\"" := by
  rw [format_value.eq_def]
  simp only [h]
  rw [if_neg (by simp)]

theorem fv_list_preview (vs : List Value) (maxd maxs ind : Nat)
    (h0 : vs.isEmpty = false) (h : vs.length > maxd) :
    format_value (.list vs) maxd maxs ind =
      "<array[" ++ toString vs.length ++ "]: " ++ pyRepr (.list (vs.take 4)) ++ "...>" := by
  rw [format_value.eq_def]
  simp only [h0]
  rw [if_neg (by simp), if_pos h]

theorem fv_obj_preview (fs : List (String × Value)) (maxd maxs ind : Nat)
    (h0 : fs.isEmpty = false) (hsoa : objHasKey fs "_SOA_" = false) (h : fs.length > maxd) :
    format_value (.obj fs) maxd maxs ind = "<object[" ++ toString fs.length ++ "]>" := by
  rw [format_value.eq_def]
  simp only [h0, hsoa]
  rw [if_neg (by simp), if_neg (by simp), if_pos h]

/-- C10: a string value that starts with `<` and contains `...` is returned
verbatim by the renderer — no quotes, no truncation — whatever its length or
origin; every other string is wrapped in double quotes (after the max-length
truncation rule). -/
theorem claim_c10_sentinel_passthrough :
    (∀ (s : String) (maxd maxs ind : Nat),
      s.data.head? = some '<' → hasSub "...".data s.data = true →
      format_value (.str s) maxd maxs ind = s) ∧
    (∀ (s : String) (maxd maxs ind : Nat),
      (decide (s.data.head? = some '<') && hasSub "...".data s.data) = false →
      format_value (.str s) maxd maxs ind =
        "\"" ++ String.mk (if s.data.length ≤ maxs then s.data
          else s.data.take (maxs / 2) ++ "...".data ++ pyTail s.data (maxs / 2)) ++ "\"") :=
  ⟨fv_str_sentinel, fv_str_quoted⟩

/-- Witness for C10: a long sentinel-shaped data string passes through
verbatim even beyond `max_str`; an ordinary string is quoted. -/
theorem claim_c10_witness :
    format_value (.str "<abcdef...xyz>") 100 4 0 = "<abcdef...xyz>" ∧
    format_value (.str "hi") 100 4 0 =
      "\"" ++ String.mk (if "hi".data.length ≤ 4 then "hi".data
        else "hi".data.take (4 / 2) ++ "...".data ++ pyTail "hi".data (4 / 2)) ++ "\"" :=
  ⟨claim_c10_sentinel_passthrough.1 "<abcdef...xyz>" 100 4 0 rfl rfl,
   claim_c10_sentinel_passthrough.2 "hi" 100 4 0 rfl⟩

/-- C9, counterexample to the claim as stated: the string `"abcde"` rendered
under `max_str = 4` collapses to `"ab...de"` with no `(N chars)` annotation
(no `5` anywhere in the output), and an object of 2 entries under
`max_items = 1` collapses to `<object[2]>`, showing none of its entries. -/
theorem claim_c9_counterexample :
    format_value (.str "abcde") 100 4 0 = "\"ab...de\"" ∧
    hasSub "5".data "\"ab...de\"".data = false ∧
    format_value (.obj [("a", .null), ("b", .null)]) 1 200 0 = "<object[2]>" ∧
    hasSub "null".data "<object[2]>".data = false := by
  refine ⟨?_, by decide, ?_, by decide⟩
  · rw [fv_str_quoted "abcde" 100 4 0 (by decide)]
    decide
  · rw [fv_obj_preview [("a", .null), ("b", .null)] 1 200 0 rfl rfl (by decide)]
    rfl

/-- C9, amended: a non-sentinel string longer than `max_str` collapses to its
quoted first and last `max_str/2` characters joined by `...`, with no
character count; an array with more than `max_items` entries collapses to
`<array[N]: [first 4 values]...>`; a non-SOA object with more than
`max_items` entries collapses to `<object[N]>`, with the total count but no
element preview. -/
theorem claim_c9_render_collapse :
    (∀ (s : String) (maxd maxs ind : Nat),
      (decide (s.data.head? = some '<') && hasSub "...".data s.data) = false →
      maxs < s.data.length →
      format_value (.str s) maxd maxs ind =
        "\"" ++ String.mk (s.data.take (maxs / 2) ++ "...".data ++ pyTail s.data (maxs / 2)) ++ "\"") ∧
    (∀ (vs : List Value) (maxd maxs ind : Nat),
      vs.isEmpty = false → vs.length > maxd →
      format_value (.list vs) maxd maxs ind =
        "<array[" ++ toString vs.length ++ "]: " ++ pyRepr (.list (vs.take 4)) ++ "...>") ∧
    (∀ (fs : List (String × Value)) (maxd maxs ind : Nat),
      fs.isEmpty = false → objHasKey fs "_SOA_" = false → fs.length > maxd →
      format_value (.obj fs) maxd maxs ind = "<object[" ++ toString fs.length ++ "]>") := by
  refine ⟨?_, fv_list_preview, fv_obj_preview⟩
  intro s maxd maxs ind h hlong
  rw [fv_str_quoted s maxd maxs ind h, if_neg (by omega)]

/-- Witness for C9 at concrete inputs. -/
theorem claim_c9_witness :
    format_value (.str "abcde") 100 4 0 =
      "\"" ++ String.mk ("abcde".data.take (4 / 2) ++ "...".data ++ pyTail "abcde".data (4 / 2)) ++ "\"" ∧
    format_value (.list [.int 1, .int 2, .int 3]) 2 200 0 =
      "<array[" ++ toString ([Value.int 1, .int 2, .int 3].length) ++ "]: " ++
        pyRepr (.list ([Value.int 1, .int 2, .int 3].take 4)) ++ "...>" ∧
    format_value (.obj [("a", .null), ("b", .null)]) 1 200 0 =
      "<object[" ++ toString ([("a", Value.null), ("b", Value.null)].length) ++ "]>" :=
  ⟨claim_c9_render_collapse.1 "abcde" 100 4 0 (by decide) (by decide),
   claim_c9_render_collapse.2.1 [.int 1, .int 2, .int 3] 2 200 0 rfl (by decide),
   claim_c9_render_collapse.2.2 [("a", .null), ("b", .null)] 1 200 0 rfl rfl (by decide)⟩

/-! ### Dictionary index out of range (for C6) -/

theorem dict_oob (big : Bool) (nm : String) (ib : Nat) (im : List Nat) (dict : List String)
    (data : List Nat) (idx : Nat) (size : Nat) (fmt : Fmt) (j : Nat)
    (hm : markersKey big im = some (size, some fmt))
    (hu : struct_unpack (some fmt) data = .ok (.int (j : Int)))
    (hj : dict.length ≤ j) :
    decode_field big (.strDict nm ib im dict) data idx = .error .indexError := by
  rw [decode_field.eq_def]
  simp only [hm, hu, okBind]
  show (do
    let j2 ← valueToIndex (.int (j : Int))
    let s ← pyGetInt dict j2
    Except.ok (Value.str s)) = Except.error PyErr.indexError
  simp only [valueToIndex, okBind]
  simp only [pyGetInt]
  have hnn : ¬((j : Int) < 0) := by omega
  simp only [if_neg hnn]
  rw [dif_neg (by
    push_cast
    omega)]
  rfl

/-- C6: decoding a dictionary-encoded string field whose stored index is out
of the dictionary's range fails with the low-level Python `IndexError` raised
by the list indexing (the decoder defines no structured
`IndexOutOfRange`/`DecodeError`); no placeholder value is substituted — first
at the concrete failing input, in both the row (`decode_field`) and column
(`decode_column`) paths, then in general. -/
theorem claim_c6_dict_index_error :
    decode_field false (.strDict "color" 1 [85] ["red"]) [5] 0 = .error .indexError ∧
    decode_column false (.strDict "color" 1 [85] ["red"]) [5] 1 = .error .indexError ∧
    (∀ (big : Bool) (nm : String) (ib : Nat) (im : List Nat) (dict : List String)
       (data : List Nat) (idx : Nat) (size : Nat) (fmt : Fmt) (j : Nat),
      markersKey big im = some (size, some fmt) →
      struct_unpack (some fmt) data = .ok (.int (j : Int)) →
      dict.length ≤ j →
      decode_field big (.strDict nm ib im dict) data idx = .error .indexError) := by
  refine ⟨?_, ?_, dict_oob⟩
  · exact dict_oob false "color" 1 [85] ["red"] [5] 0 1 ⟨false, 1, .uint⟩ 5 rfl rfl (by decide)
  · rfl

/-! ### ASCII, rstrip and flatten-slice lemmas (for C8 and C1) -/

theorem decode_ascii : ∀ (bytes : List Nat), (∀ b ∈ bytes, b < 128) →
    decodeUtf8Replace bytes = bytes.map Char.ofNat
  | [], _ => rfl
  | b :: rest, h => by
    rw [decodeUtf8Replace.eq_def]
    simp only [if_pos (h b (List.mem_cons_self b rest)), List.map_cons]
    rw [decode_ascii rest (fun x hx => h x (List.mem_cons_of_mem b hx))]

theorem encodeStr_ascii : ∀ (s : List Char), (∀ c ∈ s, c.toNat < 128) →
    encodeStr s = s.map Char.toNat
  | [], _ => rfl
  | c :: rest, h => by
    show encodeChar c ++ encodeStr rest = _
    rw [encodeChar, if_pos (h c (List.mem_cons_self c rest)), List.map_cons,
      encodeStr_ascii rest (fun x hx => h x (List.mem_cons_of_mem c hx))]
    rfl

theorem rstripNull_replicate (a : List Char) (k : Nat) :
    rstripNull (a ++ List.replicate k '\x00') = rstripNull a := by
  unfold rstripNull
  rw [List.reverse_append, List.reverse_replicate]
  congr 1
  induction k with
  | zero => rfl
  | succ k ih =>
    rw [List.replicate_succ, List.cons_append, List.dropWhile_cons_of_pos (by simp)]
    exact ih

theorem rstripNull_no_trailing (a : List Char) (h : a.getLast? ≠ some '\x00') :
    rstripNull a = a := by
  unfold rstripNull
  match ha : a.reverse with
  | [] =>
    have : a = [] := by simpa using congrArg List.reverse ha
    simp [this]
  | c :: t =>
    have hlast : a.getLast? = some c := by
      rw [← List.head?_reverse, ha]
      rfl
    have hc : ¬(c = '\x00') := by
      intro hcc
      exact h (by rw [hlast, hcc])
    rw [List.dropWhile_cons_of_neg (by simpa using hc), ← ha, List.reverse_reverse]

theorem pySlice_append_shift (xs ys : List α) (a b : Nat) :
    pySlice (xs ++ ys) (xs.length + a) (xs.length + b) = pySlice ys a b := by
  simp [pySlice, List.take_append, List.drop_append]

theorem pySlice_flatten : ∀ (ls : List (List α)) (i : Nat) (h : i < ls.length),
    pySlice ls.flatten (((ls.take i).map List.length).sum)
      (((ls.take i).map List.length).sum + (ls.get ⟨i, h⟩).length) = ls.get ⟨i, h⟩
  | [], i, h => by simp at h
  | l :: ls, 0, h => by
    simp only [List.take_zero, List.map_nil, List.sum_nil, List.get, List.flatten_cons]
    show pySlice (l ++ ls.flatten) 0 (0 + l.length) = l
    simp [pySlice, List.take_append]
  | l :: ls, i + 1, h => by
    simp only [List.take_succ_cons, List.map_cons, List.sum_cons, List.get, List.flatten_cons]
    have hi : i < ls.length := by
      simpa using Nat.lt_of_succ_lt_succ h
    have e1 : l.length + ((ls.take i).map List.length).sum + (ls.get ⟨i, hi⟩).length =
        l.length + (((ls.take i).map List.length).sum + (ls.get ⟨i, hi⟩).length) := by omega
    rw [e1, pySlice_append_shift]
    exact pySlice_flatten ls i hi

theorem pyGetInt_natCast (l : List α) (i : Nat) (h : i < l.length) :
    pyGetInt l (i : Int) = .ok (l.get ⟨i, h⟩) := by
  simp only [pyGetInt]
  have hnn : ¬((i : Int) < 0) := by omega
  simp only [if_neg hnn]
  rw [dif_pos (by push_cast; omega)]
  congr 1

theorem unpack_byte (big : Bool) (i : Nat) :
    struct_unpack (some ⟨big, 1, .uint⟩) [i] = .ok (.int i) := by
  simp [struct_unpack, fmtValue, leNat]

/-! ### The three string encodings decode equally on ASCII data (C8) -/

/-- Modelled from the spec: the fixed-width encoding of a string field value —
its UTF-8 bytes padded with NULs to the field width (§4.3: "raw n bytes,
UTF-8 decode with trailing NUL trimmed"). -/
def fixedPayload (n : Nat) (s : String) : List Nat :=
  encodeStr s.data ++ List.replicate (n - (encodeStr s.data).length) 0

/-- Modelled from the spec: the offset-table encoding — `count+1` byte
offsets, `offsets[k]` being the total UTF-8 byte length of the first `k`
strings (§3: "the shared string buffer length equals the final offset"). -/
def offsetsOf (ss : List String) : List Int :=
  (List.range (ss.length + 1)).map
    (fun k => (((ss.take k).map (fun s => (encodeStr s.data).length)).sum : Int))

/-- Modelled from the spec: the shared string buffer as the decoder holds it —
the concatenated UTF-8 bytes of all values, decoded with
`utf-8`/`errors='replace'` (source line 264). -/
def bufOf (ss : List String) : String :=
  String.mk (decodeUtf8Replace ((ss.map (fun s => encodeStr s.data)).flatten))

theorem decode_strF (big : Bool) (nm : String) (n : Nat) (data : List Nat) (idx : Nat) :
    decode_field big (.strF nm n) data idx =
      .ok (.str (String.mk (rstripNull (decodeUtf8Replace data)))) := by
  rw [decode_field.eq_def]

theorem decode_strDict_ok (big : Bool) (nm : String) (ib : Nat) (im : List Nat)
    (dict : List String) (data : List Nat) (idx : Nat) (size : Nat) (fmt : Fmt) (j : Nat)
    (hm : markersKey big im = some (size, some fmt))
    (hu : struct_unpack (some fmt) data = .ok (.int (j : Int)))
    (hj : j < dict.length) :
    decode_field big (.strDict nm ib im dict) data idx = .ok (.str (dict.get ⟨j, hj⟩)) := by
  rw [decode_field.eq_def]
  simp only [hm, hu, okBind]
  show (do
    let j2 ← valueToIndex (.int (j : Int))
    let s ← pyGetInt dict j2
    Except.ok (Value.str s)) = _
  simp only [valueToIndex, okBind, pyGetInt_natCast dict j hj]

/-- C8, counterexample to the claim as stated: the string `"a\x00"` encoded
fixed-width (bytes `61 00`, an exact fit at width 2) decodes to `"a"` because
the fixed-width path strips trailing NULs, while the same string encoded via
a dictionary decodes to `"a\x00"`; the two paths are not observationally
equivalent on such values. -/
theorem claim_c8_counterexample :
    decode_field false (.strF "f" 2) (fixedPayload 2 "a\x00") 0 = .ok (.str "a") ∧
    decode_field false (.strDict "f" 1 [85] ["a\x00"]) [0] 0 = .ok (.str "a\x00") ∧
    ("a" : String) ≠ "a\x00" := by
  refine ⟨?_, ?_, by decide⟩
  · rw [decode_strF]
    rfl
  · rw [decode_strDict_ok false "f" 1 [85] ["a\x00"] [0] 0 1 ⟨false, 1, .uint⟩ 0 rfl
      (unpack_byte false 0) (by decide)]
    rfl

theorem map_ofNat_toNat : ∀ (l : List Char), l.map (Char.ofNat ∘ Char.toNat) = l
  | [] => rfl
  | c :: t => by
    simp only [List.map_cons, Function.comp, Char.ofNat_toNat, map_ofNat_toNat t]

/-- C8, amended: for a set of ASCII string values without trailing NUL
characters (each fitting its fixed width, at most 255 of them so a one-byte
index suffices), the fixed-width, dictionary and offset decoding paths all
recover exactly the i-th string — the three encodings are observationally
equivalent on such data. -/
theorem claim_c8_string_encoding_equiv (ss : List String) (i : Nat) (hi : i < ss.length)
    (n : Nat) (big : Bool) (nm1 nm2 nm3 : String) (ib : Nat)
    (hascii : ∀ s ∈ ss, ∀ c ∈ s.data, c.toNat < 128)
    (hnul : ∀ s ∈ ss, s.data.getLast? ≠ some '\x00')
    (hfit : (encodeStr (ss.get ⟨i, hi⟩).data).length ≤ n)
    (hcount : ss.length ≤ 255) :
    decode_field big (.strF nm1 n) (fixedPayload n (ss.get ⟨i, hi⟩)) 0 =
      .ok (.str (ss.get ⟨i, hi⟩)) ∧
    decode_field big (.strDict nm2 ib [85] ss) [i] 0 = .ok (.str (ss.get ⟨i, hi⟩)) ∧
    decode_field big (.strOffset nm3 1 ⟨big, 1, .uint⟩ (offsetsOf ss) (bufOf ss)) [i] 0 =
      .ok (.str (ss.get ⟨i, hi⟩)) := by
  have hmem : ss.get ⟨i, hi⟩ ∈ ss := List.get_mem ss i hi
  have hsa : ∀ c ∈ (ss.get ⟨i, hi⟩).data, c.toNat < 128 := hascii _ hmem
  refine ⟨?_, ?_, ?_⟩
  · rw [decode_strF]
    congr 2
    rw [fixedPayload]
    set k := n - (encodeStr (ss.get ⟨i, hi⟩).data).length with hk
    rw [encodeStr_ascii _ hsa]
    have hall : ∀ b ∈ ((ss.get ⟨i, hi⟩).data.map Char.toNat ++ List.replicate k 0), b < 128 := by
      intro b hb
      rcases List.mem_append.mp hb with hb | hb
      · obtain ⟨c, hc, rfl⟩ := List.mem_map.mp hb
        exact hsa c hc
      · rw [List.eq_of_mem_replicate hb]
        omega
    rw [decode_ascii _ hall, List.map_append, List.map_map]
    have h1 : (ss.get ⟨i, hi⟩).data.map (Char.ofNat ∘ Char.toNat) = (ss.get ⟨i, hi⟩).data :=
      map_ofNat_toNat _
    have h2 : (List.replicate k 0).map Char.ofNat = List.replicate k '\x00' := by
      rw [List.map_replicate]
    rw [h1, h2, rstripNull_replicate, rstripNull_no_trailing _ (hnul _ hmem)]
  · exact decode_strDict_ok big nm2 ib [85] ss [i] 0 1 ⟨big, 1, .uint⟩ i rfl
      (unpack_byte big i) hi
  · rw [decode_field.eq_def]
    simp only [unpack_byte big i, okBind]
    show (do
      let j ← valueToIndex (.int (i : Int))
      let o1 ← pyGetInt (offsetsOf ss) j
      let o2 ← pyGetInt (offsetsOf ss) (j + 1)
      Except.ok (Value.str (String.mk (pySliceI (bufOf ss).data o1 o2)))) = _
    simp only [valueToIndex, okBind]
    have hlo : (offsetsOf ss).length = ss.length + 1 := by simp [offsetsOf]
    have hki : i < (offsetsOf ss).length := by omega
    have hki1 : i + 1 < (offsetsOf ss).length := by omega
    have hgo : ∀ (k : Nat) (hk : k < (offsetsOf ss).length),
        (offsetsOf ss).get ⟨k, hk⟩ =
          (((ss.map (fun s => (encodeStr s.data).length)).take k).sum : Int) := by
      intro k hk
      simp [offsetsOf, List.get_map, List.map_take]
    have h1 := pyGetInt_natCast (offsetsOf ss) i hki
    have hcast : ((i : Int) + 1) = ((i + 1 : Nat) : Int) := by push_cast; ring
    have h2 := pyGetInt_natCast (offsetsOf ss) (i + 1) hki1
    rw [h1]
    simp only [okBind]
    rw [hcast, h2]
    simp only [okBind]
    congr 2
    rw [hgo i hki, hgo (i + 1) hki1, pySliceI_natCast]
    have hsum : ((ss.map (fun s => (encodeStr s.data).length)).take (i + 1)).sum =
        ((ss.map (fun s => (encodeStr s.data).length)).take i).sum +
          (encodeStr (ss.get ⟨i, hi⟩).data).length := by
      rw [List.sum_take_succ _ i (by simp [hi])]
      congr 1
      simp [List.get_map]
    rw [hsum]
    have hbuf : (bufOf ss).data = (ss.map (fun s => s.data)).flatten := by
      show decodeUtf8Replace ((ss.map (fun s => encodeStr s.data)).flatten) = _
      have hall : ∀ b ∈ (ss.map (fun s => encodeStr s.data)).flatten, b < 128 := by
        intro b hb
        obtain ⟨l, hl, hbl⟩ := List.mem_flatten.mp hb
        obtain ⟨t, ht, rfl⟩ := List.mem_map.mp hl
        rw [encodeStr_ascii _ (hascii t ht)] at hbl
        obtain ⟨c, hc, rfl⟩ := List.mem_map.mp hbl
        exact hascii t ht c hc
      rw [decode_ascii _ hall, List.map_flatten, List.map_map]
      congr 1
      apply List.map_congr_left
      intro t ht
      simp only [Function.comp]
      rw [encodeStr_ascii _ (hascii t ht), List.map_map]
      exact map_ofNat_toNat t.data
    rw [hbuf]
    have hlens : ((ss.map (fun s => (encodeStr s.data).length)).take i).sum =
        (((ss.map (fun s => s.data)).take i).map List.length).sum := by
      rw [← List.map_take, ← List.map_take, List.map_map]
      congr 1
      apply List.map_congr_left
      intro t ht
      simp only [Function.comp]
      rw [encodeStr_ascii _ (hascii t (List.mem_of_mem_take ht)), List.length_map]
    have hget : ((ss.map (fun s => s.data)).get ⟨i, by simp [hi]⟩) = (ss.get ⟨i, hi⟩).data := by
      simp [List.get_map]
    have hflat := pySlice_flatten (ss.map (fun s => s.data)) i (by simp [hi])
    rw [hget] at hflat
    rw [hlens]
    have hlen2 : (encodeStr (ss.get ⟨i, hi⟩).data).length = (ss.get ⟨i, hi⟩).data.length := by
      rw [encodeStr_ascii _ hsa, List.length_map]
    rw [hlen2, hflat]

/-- Witness for C8: the values `["ab", "c"]` at index 1 decode to `"c"` under
all three encodings. -/
theorem claim_c8_witness :
    decode_field false (.strF "f" 2) (fixedPayload 2 (["ab", "c"].get ⟨1, by decide⟩)) 0 =
      .ok (.str (["ab", "c"].get ⟨1, by decide⟩)) ∧
    decode_field false (.strDict "g" 1 [85] ["ab", "c"]) [1] 0 =
      .ok (.str (["ab", "c"].get ⟨1, by decide⟩)) ∧
    decode_field false
        (.strOffset "h" 1 ⟨false, 1, .uint⟩ (offsetsOf ["ab", "c"]) (bufOf ["ab", "c"])) [1] 0 =
      .ok (.str (["ab", "c"].get ⟨1, by decide⟩)) :=
  claim_c8_string_encoding_equiv ["ab", "c"] 1 (by decide) 2 false "f" "g" "h" 1
    (by decide) (by decide) (by decide) (by decide)

/-! ### Layout equivalence machinery (for C1) -/

/-- The value of a successful `decode_field` call (arbitrary on failure). -/
def dfv (big : Bool) (f : Field) (data : List Nat) (i : Nat) : Value :=
  match decode_field big f data i with
  | .ok v => v
  | .error _ => .null

/-- Record `i`'s fields all decode successfully from `payload` starting at
byte `pos`, walking the schema suffix `fs`. -/
def RowOk (big : Bool) (payload : List Nat) (i : Nat) : List Field → Nat → Prop
  | [], _ => True
  | f :: rest, pos =>
    (∃ v, decode_field big f (pySlice payload pos (pos + f.bytes)) i = .ok v) ∧
    RowOk big payload i rest (pos + f.bytes)

/-- The record value `decode_row_fields` computes, as a pure fold. -/
def recSpecP (big : Bool) (payload : List Nat) (i : Nat) :
    List Field → Nat → List (String × Value) → List (String × Value)
  | [], _, acc => acc
  | f :: rest, pos, acc =>
    recSpecP big payload i rest (pos + f.bytes)
      (dictSet acc f.name (dfv big f (pySlice payload pos (pos + f.bytes)) i))

theorem decode_field_eq_dfv (big : Bool) (f : Field) (d : List Nat) (i : Nat)
    (h : ∃ v, decode_field big f d i = .ok v) :
    decode_field big f d i = .ok (dfv big f d i) := by
  obtain ⟨v, hv⟩ := h
  rw [hv]
  unfold dfv
  rw [hv]

theorem decode_row_fields_rowOk (big : Bool) (payload : List Nat) (i : Nat) :
    ∀ (fs : List Field) (pos : Nat) (acc : List (String × Value))
      (r : List (String × Value)),
      decode_row_fields big payload i fs pos acc = .ok r → RowOk big payload i fs pos
  | [], pos, acc, r, _ => trivial
  | f :: rest, pos, acc, r, h => by
    rw [decode_row_fields] at h
    cases hf : decode_field big f (pySlice payload pos (pos + f.bytes)) i with
    | error e =>
      rw [hf] at h
      exact absurd h (by simp [errBind])
    | ok v =>
      rw [hf] at h
      simp only [okBind] at h
      exact ⟨⟨v, hf⟩, decode_row_fields_rowOk big payload i rest (pos + f.bytes) _ r h⟩

theorem decode_row_fields_eval (big : Bool) (payload : List Nat) (i : Nat) :
    ∀ (fs : List Field) (pos : Nat) (acc : List (String × Value)),
      RowOk big payload i fs pos →
      decode_row_fields big payload i fs pos acc = .ok (recSpecP big payload i fs pos acc)
  | [], pos, acc, _ => rfl
  | f :: rest, pos, acc, h => by
    obtain ⟨hv, hrest⟩ := h
    rw [decode_row_fields, decode_field_eq_dfv big f _ i hv]
    simp only [okBind]
    rw [decode_row_fields_eval big payload i rest (pos + f.bytes) _ hrest]
    rfl

theorem mapExc_congr {f g : α → Except ε β} :
    ∀ {l : List α}, (∀ a ∈ l, f a = g a) → mapExc f l = mapExc g l
  | [], _ => rfl
  | a :: l, h => by
    rw [mapExc, mapExc, h a (List.mem_cons_self a l),
      mapExc_congr (fun x hx => h x (List.mem_cons_of_mem a hx))]

theorem mapExc_ok_of_forall {f : α → Except ε β} {g : α → β} :
    ∀ {l : List α}, (∀ a ∈ l, f a = .ok (g a)) → mapExc f l = .ok (l.map g)
  | [], _ => rfl
  | a :: l, h => by
    rw [mapExc, h a (List.mem_cons_self a l)]
    simp only [okBind]
    rw [mapExc_ok_of_forall (fun x hx => h x (List.mem_cons_of_mem a hx))]
    rfl

theorem mapExc_ok_forall {f : α → Except ε β} :
    ∀ {l : List α} {ys : List β}, mapExc f l = .ok ys → ∀ a ∈ l, ∃ b, f a = .ok b
  | [], ys, _, a, ha => absurd ha (List.not_mem_nil a)
  | x :: l, ys, h, a, ha => by
    rw [mapExc] at h
    cases hx : f x with
    | error e =>
      rw [hx] at h
      exact absurd h (by simp [errBind])
    | ok b =>
      rw [hx] at h
      simp only [okBind] at h
      cases hrec : mapExc f l with
      | error e =>
        rw [hrec] at h
        exact absurd h (by simp [errBind])
      | ok bs =>
        rcases List.mem_cons.mp ha with rfl | ha2
        · exact ⟨b, hx⟩
        · exact mapExc_ok_forall hrec a ha2

theorem pyGetNat_slice (data : List Nat) (a w pos : Nat) (hw : pos < w) :
    pyGetNat (pySlice data a (a + w)) pos = pyGetNat data (a + pos) := by
  have hlen : (pySlice data a (a + w)).length = min (a + w) data.length - a :=
    pySlice_length data a (a + w)
  by_cases h : a + pos < data.length
  · have h1 : pos < (pySlice data a (a + w)).length := by omega
    simp only [pyGetNat, dif_pos h1, dif_pos h, List.get_eq_getElem]
    congr 1
    show ((data.take (a + w)).drop a)[pos] = data[a + pos]
    simp [pySlice, List.getElem_drop, List.getElem_take]
  · have h1 : ¬(pos < (pySlice data a (a + w)).length) := by omega
    simp only [pyGetNat, dif_neg h1, dif_neg h]

theorem pyGetNat_slice_one (data : List Nat) (a : Nat) :
    pyGetNat (pySlice data a (a + 1)) 0 = pyGetNat data a := by
  have h := pyGetNat_slice data a 1 0 (by omega)
  simpa using h

theorem pySlice_pySlice (l : List α) (A B a b : Nat) :
    pySlice (pySlice l A B) a b = pySlice l (A + a) (min (A + b) B) := by
  show ((((l.take B).drop A).take b).drop a) = (l.take (min (A + b) B)).drop (A + a)
  have hdt : List.drop A (List.take (A + b) (l.take B)) = List.take b (List.drop A (l.take B)) := by
    rw [List.drop_take]
    congr 1
    omega
  rw [← hdt, List.take_take, List.drop_drop]

theorem flatten_uniform_length (ls : List (List α)) (k : Nat)
    (hu : ∀ x ∈ ls, x.length = k) : ls.flatten.length = ls.length * k := by
  induction ls with
  | nil => simp
  | cons l ls ih =>
    rw [List.flatten_cons, List.length_append, hu l (List.mem_cons_self l ls),
      ih (fun x hx => hu x (List.mem_cons_of_mem l hx)), List.length_cons]
    ring

theorem pySlice_flatten_uniform (ls : List (List α)) (k : Nat)
    (hu : ∀ x ∈ ls, x.length = k) (i : Nat) (h : i < ls.length) :
    pySlice ls.flatten (i * k) (i * k + k) = ls.get ⟨i, h⟩ := by
  have hsum : ((ls.take i).map List.length).sum = i * k := by
    rw [List.map_congr_left (fun x hx => hu x (List.mem_of_mem_take hx))]
    rw [List.map_const', List.sum_replicate, List.length_take, smul_eq_mul,
      Nat.min_eq_left (by omega)]
  have hget : (ls.get ⟨i, h⟩).length = k := hu _ (List.get_mem ls i h)
  have := pySlice_flatten ls i h
  rw [hsum, hget] at this
  exact this

/-- Schema well-formedness facts that `read_field_type` guarantees by
construction: a dictionary field's index marker is a real marker-table key,
and a fixed-array field's stored total width is the sum of its element
widths. -/
def wfField (big : Bool) : Field → Prop
  | .strDict _ _ im _ => (markersKey big im).isSome = true
  | .arr _ elems tb => (elems.map Elem.bytes).sum = tb
  | _ => True

theorem decode_elems_col_eq (data : List Nat) (A tb : Nat) :
    ∀ (elems : List Elem) (pos : Nat), pos + (elems.map Elem.bytes).sum ≤ tb →
    decode_elems_col data A elems pos = decode_elems (pySlice data A (A + tb)) elems pos
  | [], _, _ => rfl
  | e :: rest, pos, h => by
    have hsum : pos + (e.bytes + ((rest.map Elem.bytes).sum)) ≤ tb := by
      simpa [List.sum_cons] using h
    have hrec := decode_elems_col_eq data A tb rest (pos + e.bytes) (by omega)
    cases e with
    | fixed sz fmt =>
      have hb : pos + sz ≤ tb := by
        have : Elem.bytes (.fixed sz fmt) = sz := rfl
        omega
      rw [decode_elems_col, decode_elems, hrec]
      have hslice : pySlice (pySlice data A (A + tb)) pos (pos + Elem.bytes (.fixed sz fmt)) =
          pySlice data (A + pos) (A + pos + Elem.bytes (.fixed sz fmt)) := by
        rw [pySlice_pySlice]
        have : Elem.bytes (.fixed sz fmt) = sz := rfl
        congr 1
        omega
      rw [hslice]
    | bool =>
      have hb : pos + 1 ≤ tb := by
        have : Elem.bytes .bool = 1 := rfl
        omega
      rw [decode_elems_col, decode_elems, hrec]
      have h1 : pyGetNat (pySlice data (A + pos) (A + pos + Elem.bytes .bool)) 0 =
          pyGetNat data (A + pos) := pyGetNat_slice_one data (A + pos)
      have h2 : pyGetNat (pySlice data A (A + tb)) pos = pyGetNat data (A + pos) :=
        pyGetNat_slice data A tb pos (by omega)
      rw [h1, h2]

/-- `decode_column` computes exactly the per-record `decode_field` values on
the record-width slices of the column data (for schema-wellformed fields). -/
theorem decode_column_eq (big : Bool) (f : Field) (data : List Nat) (count : Nat)
    (hwf : wfField big f) :
    decode_column big f data count =
      mapExc (fun i => decode_field big f (pySlice data (i * f.bytes) (i * f.bytes + f.bytes)) i)
        (List.range count) := by
  cases f with
  | fixed nm sz fmt =>
    simp only [decode_column, Field.bytes]
    apply mapExc_congr
    intro i _
    rw [decode_field.eq_def]
    have e : (i + 1) * sz = i * sz + sz := by ring
    rw [e]
  | bool nm =>
    simp only [decode_column, Field.bytes]
    apply mapExc_congr
    intro i _
    rw [decode_field.eq_def]
    have e : i * 1 = i := by ring
    rw [e, pyGetNat_slice_one]
  | null nm =>
    simp only [decode_column]
    rw [mapExc_ok_of_forall (g := fun _ => Value.null) (fun i _ => by rw [decode_field.eq_def])]
    simp [List.map_const', List.length_range]
  | strF nm n =>
    simp only [decode_column, Field.bytes]
    apply mapExc_congr
    intro i _
    rw [decode_field.eq_def]
    have e : (i + 1) * n = i * n + n := by ring
    rw [e]
  | strDict nm ib im dict =>
    obtain ⟨⟨sz, idxFmt⟩, hm⟩ := Option.isSome_iff_exists.mp hwf
    simp only [decode_column, Field.bytes, hm]
    apply mapExc_congr
    intro i _
    rw [decode_field.eq_def]
    simp only [hm]
    have e : (i + 1) * ib = i * ib + ib := by ring
    rw [e]
  | strOffset nm ib ifmt offs buf =>
    simp only [decode_column, Field.bytes]
    apply mapExc_congr
    intro i _
    rw [decode_field.eq_def]
    have e : (i + 1) * ib = i * ib + ib := by ring
    rw [e]
  | arr nm elems tb =>
    simp only [decode_column, Field.bytes]
    apply mapExc_congr
    intro i _
    rw [decode_field.eq_def]
    have hsum : (0 : Nat) + (elems.map Elem.bytes).sum ≤ tb := by
      have : (elems.map Elem.bytes).sum = tb := hwf
      omega
    rw [decode_elems_col_eq data (i * tb) tb elems 0 hsum]
  | stru nm sch sb =>
    simp only [decode_column, Field.bytes]
    apply mapExc_congr
    intro i _
    rw [decode_field.eq_def]
    have e : (i + 1) * sb = i * sb + sb := by ring
    rw [e]

/-- The decoded column of one field, as a pure list of per-record values. -/
def colVals (big : Bool) (payload : List Nat) (rb count : Nat) (f : Field) (off : Nat) :
    List Value :=
  (List.range count).map (fun i => dfv big f (pySlice payload (i * rb + off) (i * rb + off + f.bytes)) i)

/-- The `columns` dictionary `decode_soa`'s column branch builds, as a pure
association list (distinct field names make every `dict` assignment an
append). -/
def colsList (big : Bool) (payload : List Nat) (rb count : Nat) :
    List Field → Nat → List (String × List Value)
  | [], _ => []
  | f :: rest, off =>
    (f.name, colVals big payload rb count f off) :: colsList big payload rb count rest (off + f.bytes)

theorem dictSet_not_mem (d : List (String × α)) (k : String) (v : α)
    (h : ∀ p ∈ d, p.1 ≠ k) : dictSet d k v = d ++ [(k, v)] := by
  rw [dictSet, if_neg]
  simp only [List.any_eq_true, decide_eq_true_eq, not_exists]
  push_neg
  exact h

theorem pyDictGet_append_right (d₁ d₂ : List (String × α)) (k : String)
    (h : ∀ p ∈ d₁, p.1 ≠ k) : pyDictGet (d₁ ++ d₂) k = pyDictGet d₂ k := by
  induction d₁ with
  | nil => rfl
  | cons p rest ih =>
    show pyDictGet (p :: (rest ++ d₂)) k = pyDictGet d₂ k
    rw [pyDictGet, List.find?_cons_of_neg]
    · exact ih (fun q hq => h q (List.mem_cons_of_mem p hq))
    · simp [h p (List.mem_cons_self p rest)]

theorem pyDictGet_cons_self (k : String) (v : α) (d : List (String × α)) :
    pyDictGet ((k, v) :: d) k = .ok v := by
  rw [pyDictGet, List.find?_cons_of_pos]
  simp

theorem pySlice_append_zero (xs ys : List α) (b : Nat) :
    pySlice (xs ++ ys) xs.length (xs.length + b) = pySlice ys 0 b := by
  have h := pySlice_append_shift xs ys 0 b
  simpa using h

theorem pySlice_zero_of_prefix (B tail : List α) (L : Nat) (h : B.length = L) :
    pySlice (B ++ tail) 0 L = B := by
  show ((B ++ tail).take L).drop 0 = B
  rw [List.drop_zero, ← h, List.take_left]

/-- On a column-major payload that is the byte transpose of a decodable
row-major payload, the column build phase appends one `(name, column)` pair
per schema field, in order. -/
theorem cols_build_eq (big : Bool) (payload : List Nat) (rb count : Nat)
    (hlen : payload.length = rb * count) :
    ∀ (fs : List Field) (off : Nat) (pre : List Nat) (cols : List (String × List Value)),
      (∀ g ∈ fs, wfField big g) →
      (fs.map Field.name).Nodup →
      (∀ i, i < count → RowOk big payload i fs (i * rb + off)) →
      off + record_bytes fs ≤ rb →
      (∀ p ∈ cols, p.1 ∉ fs.map Field.name) →
      pre.length = count * off →
      decode_soa_cols_build big (pre ++ toColMajorFrom payload rb count fs off) count fs cols
          pre.length = .ok (cols ++ colsList big payload rb count fs off)
  | [], off, pre, cols, _, _, _, _, _, _ => by
    simp [decode_soa_cols_build, colsList]
  | f :: rest, off, pre, cols, hwf, hnd, hcells, hfit, hdisj, hpre => by
    have hfb : record_bytes (f :: rest) = f.bytes + record_bytes rest := by
      simp [record_bytes]
    have hfitf : off + f.bytes ≤ rb := by omega
    have hnd2 : f.name ∉ rest.map Field.name ∧ (rest.map Field.name).Nodup := by
      simpa using hnd
    have hpiece : ∀ x ∈ (List.range count).map
        (fun j => pySlice payload (j * rb + off) (j * rb + off + f.bytes)),
        x.length = f.bytes := by
      intro x hx
      simp only [List.mem_map, List.mem_range] at hx
      obtain ⟨j, hj, rfl⟩ := hx
      rw [pySlice_length]
      have h1 : (j + 1) * rb ≤ count * rb := Nat.mul_le_mul_right rb (by omega)
      have h2 : (j + 1) * rb = j * rb + rb := by ring
      have h3 : rb * count = count * rb := by ring
      omega
    have hBlen : (List.flatten ((List.range count).map
        (fun j => pySlice payload (j * rb + off) (j * rb + off + f.bytes)))).length =
        f.bytes * count := by
      rw [flatten_uniform_length _ f.bytes hpiece, List.length_map, List.length_range]
      ring
    have hcolv : decode_column big f
        (List.flatten ((List.range count).map
          (fun j => pySlice payload (j * rb + off) (j * rb + off + f.bytes)))) count =
        .ok (colVals big payload rb count f off) := by
      rw [decode_column_eq big f _ count (hwf f (List.mem_cons_self f rest))]
      unfold colVals
      apply mapExc_ok_of_forall
      intro i hi
      rw [List.mem_range] at hi
      have hup := pySlice_flatten_uniform
        ((List.range count).map
          (fun j => pySlice payload (j * rb + off) (j * rb + off + f.bytes)))
        f.bytes hpiece i (by simpa using hi)
      rw [hup]
      simp only [List.get_eq_getElem, List.getElem_map, List.getElem_range]
      exact decode_field_eq_dfv big f _ i (hcells i hi).1
    rw [toColMajorFrom, decode_soa_cols_build, colsList]
    set B := List.flatten ((List.range count).map
      (fun j => pySlice payload (j * rb + off) (j * rb + off + f.bytes))) with hB
    set tl := toColMajorFrom payload rb count rest (off + f.bytes) with htl
    have hslice : pySlice (pre ++ (B ++ tl)) pre.length (pre.length + f.bytes * count) = B := by
      rw [pySlice_append_zero pre (B ++ tl) (f.bytes * count)]
      exact pySlice_zero_of_prefix B tl (f.bytes * count) hBlen
    rw [hslice, hcolv]
    simp only [okBind]
    have hds : dictSet cols f.name (colVals big payload rb count f off) =
        cols ++ [(f.name, colVals big payload rb count f off)] := by
      apply dictSet_not_mem
      intro p hp he
      exact hdisj p hp (by rw [he]; simp)
    rw [hds]
    rw [show pre ++ (B ++ tl) = (pre ++ B) ++ tl from (List.append_assoc pre B tl).symm]
    rw [show pre.length + f.bytes * count = (pre ++ B).length from by
      rw [List.length_append, hBlen]]
    have hrec := cols_build_eq big payload rb count hlen rest (off + f.bytes) (pre ++ B)
      (cols ++ [(f.name, colVals big payload rb count f off)])
      (fun g hg => hwf g (List.mem_cons_of_mem f hg))
      hnd2.2
      (fun i hi => by
        have e : i * rb + off + f.bytes = i * rb + (off + f.bytes) := by omega
        exact e ▸ (hcells i hi).2)
      (by omega)
      (fun p hp => by
        rcases List.mem_append.mp hp with hq | hq
        · intro hmem
          exact hdisj p hq (by simp only [List.map_cons]; exact List.mem_cons_of_mem _ hmem)
        · have hpe : p = (f.name, colVals big payload rb count f off) := by simpa using hq
          rw [hpe]
          exact hnd2.1)
      (by rw [List.length_append, hBlen, hpre]; ring)
    rw [← htl] at hrec
    rw [hrec]
    simp

/-- The columns dictionary resolves every schema field name to the decoded
column of that field (walking the schema suffix `fs` at byte offset `off`). -/
def ColsGood (big : Bool) (payload : List Nat) (rb count : Nat)
    (cols : List (String × List Value)) : List Field → Nat → Prop
  | [], _ => True
  | f :: rest, off =>
    pyDictGet cols f.name = .ok (colVals big payload rb count f off) ∧
    ColsGood big payload rb count cols rest (off + f.bytes)

theorem colsList_good (big : Bool) (payload : List Nat) (rb count : Nat) :
    ∀ (fs : List Field) (off : Nat) (pre : List (String × List Value)),
      (fs.map Field.name).Nodup →
      (∀ p ∈ pre, p.1 ∉ fs.map Field.name) →
      ColsGood big payload rb count (pre ++ colsList big payload rb count fs off) fs off
  | [], _, _, _, _ => trivial
  | f :: rest, off, pre, hnd, hdisj => by
    have hnd2 : f.name ∉ rest.map Field.name ∧ (rest.map Field.name).Nodup := by
      simpa using hnd
    constructor
    · rw [colsList, pyDictGet_append_right pre _ f.name
        (fun p hp he => hdisj p hp (by rw [he]; simp))]
      exact pyDictGet_cons_self f.name _ _
    · have hrec := colsList_good big payload rb count rest (off + f.bytes)
        (pre ++ [(f.name, colVals big payload rb count f off)])
        hnd2.2
        (fun p hp => by
          rcases List.mem_append.mp hp with hq | hq
          · intro hmem
            exact hdisj p hq (by simp only [List.map_cons]; exact List.mem_cons_of_mem _ hmem)
          · have hpe : p = (f.name, colVals big payload rb count f off) := by simpa using hq
            rw [hpe]
            exact hnd2.1)
      rw [colsList]
      have he : (pre ++ [(f.name, colVals big payload rb count f off)]) ++
          colsList big payload rb count rest (off + f.bytes) =
          pre ++ ((f.name, colVals big payload rb count f off) ::
            colsList big payload rb count rest (off + f.bytes)) := by
        simp
      rw [he] at hrec
      exact hrec

/-- Transposing the good columns back into record `i` reproduces the row
fold `recSpecP` at record offset `i * rb + off`. -/
theorem decode_col_record_eval (big : Bool) (payload : List Nat) (rb count : Nat)
    (cols : List (String × List Value)) (i : Nat) (hi : i < count) :
    ∀ (fs : List Field) (off : Nat) (acc : List (String × Value)),
      ColsGood big payload rb count cols fs off →
      decode_col_record cols i fs acc = .ok (recSpecP big payload i fs (i * rb + off) acc)
  | [], _, _, _ => rfl
  | f :: rest, off, acc, h => by
    obtain ⟨hget, hrest⟩ := h
    rw [decode_col_record, hget]
    simp only [okBind]
    have hv : pyGetNat (colVals big payload rb count f off) i =
        .ok (dfv big f (pySlice payload (i * rb + off) (i * rb + off + f.bytes)) i) := by
      have hl : i < (colVals big payload rb count f off).length := by
        simp [colVals, hi]
      rw [pyGetNat, dif_pos hl]
      simp [colVals]
    rw [hv]
    simp only [okBind]
    have hrec := decode_col_record_eval big payload rb count cols i hi rest (off + f.bytes)
      (dictSet acc f.name (dfv big f (pySlice payload (i * rb + off) (i * rb + off + f.bytes)) i))
      hrest
    rw [show i * rb + (off + f.bytes) = i * rb + off + f.bytes from by omega] at hrec
    rw [hrec]
    rfl

/-- C1: for every SOA schema (with the distinct field names and the structural
facts `read_field_type` guarantees by construction), every record count, and
every row-major payload of the declared total size whose records all decode,
decoding the byte-transposed column-major payload of the same logical records
under layout "column" yields the identical ordered list of records,
field-by-field in schema order. -/
theorem claim_c1_layout_equivalence (big : Bool) (schema : List Field) (count : Nat)
    (payload : List Nat) (recs : List (List (String × Value)))
    (hlen : payload.length = record_bytes schema * count)
    (hnodup : (schema.map Field.name).Nodup)
    (hwf : ∀ f ∈ schema, wfField big f)
    (hrow : decode_soa big schema count "row" payload = .ok recs) :
    decode_soa big schema count "column" (toColMajor schema count payload) = .ok recs := by
  have hlay : ¬("row" = "column") := by decide
  rw [decode_soa, if_neg hlay] at hrow
  have hRowOk : ∀ i, i < count → RowOk big payload i schema (i * record_bytes schema) := by
    intro i hi
    obtain ⟨r, hr⟩ := mapExc_ok_forall hrow i (List.mem_range.mpr hi)
    exact decode_row_fields_rowOk big payload i schema (i * record_bytes schema) [] r hr
  have hRowEval : ∀ i ∈ List.range count,
      decode_row_fields big payload i schema (i * record_bytes schema) [] =
        .ok (recSpecP big payload i schema (i * record_bytes schema) []) :=
    fun i hi => decode_row_fields_eval big payload i schema (i * record_bytes schema) []
      (hRowOk i (List.mem_range.mp hi))
  have hrecs : (List.range count).map
      (fun i => recSpecP big payload i schema (i * record_bytes schema) []) = recs := by
    have h2 := (mapExc_ok_of_forall hRowEval).symm.trans hrow
    exact Except.ok.inj h2
  rw [decode_soa, if_pos rfl]
  have hbuild := cols_build_eq big payload (record_bytes schema) count hlen schema 0 [] []
    hwf hnodup
    (fun i hi => by
      have e : i * record_bytes schema + 0 = i * record_bytes schema := by omega
      rw [e]
      exact hRowOk i hi)
    (by omega)
    (fun p hp => absurd hp (List.not_mem_nil p))
    (by simp)
  simp only [List.nil_append, List.length_nil] at hbuild
  rw [toColMajor, hbuild]
  simp only [okBind]
  have hgood : ColsGood big payload (record_bytes schema) count
      (colsList big payload (record_bytes schema) count schema 0) schema 0 := by
    have hg := colsList_good big payload (record_bytes schema) count schema 0 []
      hnodup (fun p hp => absurd hp (List.not_mem_nil p))
    simpa using hg
  have hcolrec : ∀ i ∈ List.range count,
      decode_col_record (colsList big payload (record_bytes schema) count schema 0) i schema [] =
        .ok (recSpecP big payload i schema (i * record_bytes schema) []) := by
    intro i hi
    rw [List.mem_range] at hi
    have h := decode_col_record_eval big payload (record_bytes schema) count _ i hi schema 0 []
      hgood
    rw [show i * record_bytes schema + 0 = i * record_bytes schema from by omega] at h
    exact h
  rw [mapExc_ok_of_forall hcolrec, hrecs]

theorem claim_c1_witness :
    decode_soa false [Field.fixed "a" 1 (some ⟨false, 1, FmtKind.uint⟩), Field.bool "b"] 2
        "row" [7, 84, 9, 70] =
      .ok [[("a", Value.int 7), ("b", Value.bool true)],
           [("a", Value.int 9), ("b", Value.bool false)]] ∧
    decode_soa false [Field.fixed "a" 1 (some ⟨false, 1, FmtKind.uint⟩), Field.bool "b"] 2
        "column"
        (toColMajor [Field.fixed "a" 1 (some ⟨false, 1, FmtKind.uint⟩), Field.bool "b"] 2
          [7, 84, 9, 70]) =
      .ok [[("a", Value.int 7), ("b", Value.bool true)],
           [("a", Value.int 9), ("b", Value.bool false)]] := by
  have hrow : decode_soa false [Field.fixed "a" 1 (some ⟨false, 1, FmtKind.uint⟩),
      Field.bool "b"] 2 "row" [7, 84, 9, 70] =
      .ok [[("a", Value.int 7), ("b", Value.bool true)],
           [("a", Value.int 9), ("b", Value.bool false)]] := by
    rw [decode_soa, if_neg (by decide)]
    rw [show List.range 2 = [0, 1] from rfl]
    simp only [mapExc, decode_row_fields, decode_field.eq_def]
    rfl
  refine ⟨hrow, ?_⟩
  exact claim_c1_layout_equivalence false
    [Field.fixed "a" 1 (some ⟨false, 1, FmtKind.uint⟩), Field.bool "b"] 2 [7, 84, 9, 70]
    [[("a", Value.int 7), ("b", Value.bool true)], [("a", Value.int 9), ("b", Value.bool false)]]
    (by decide) (by decide) (by intro f hf; fin_cases hf <;> trivial) hrow

end Njv
